import Mathlib

/-
Verification of the audio capture/segmentation engine (`useRecorder.ts`)
and the batch audio splitter (`AudioSplitter.tsx`) of this repository.

The live recording session is embedded as an explicit state machine
`Session` with a step function over abstract events (start / chunk
delivery / stop / manual split / periodic timer fire / reset / delete).
The batch splitter's `handleSplit` is embedded as a pure function over a
`SplitterState`, parameterized by the observable behaviour of the
external FFmpeg engine (`EngineBehavior`).

Modelling conventions:
- JavaScript strings are Lean `String`s; `split`, `startsWith`,
  `padStart` and `toLowerCase` are mirrored by structurally recursive
  operations on the underlying character lists (Lean's own `String.splitOn`
  is avoided because it does not reduce inside the kernel).
- A JS `Blob` is modelled by its byte list; only its `size` (the list
  length) is ever inspected by the code under verification.
- Wall-clock instants (`new Date()`) are modelled by `DT`: broken-down
  fields as read by `getFullYear`/`getMonth`/... (the `month` field is
  1-based, i.e. the source's `getMonth() + 1`), plus an abstract absolute
  millisecond clock `ms` used by the interval timers.
-/

/- ## Decimal numerals: toolkit for `Nat.repr` (JS `${n}` / `toString`) -/

/-- Numeric value of a decimal digit character. -/
def digitVal (c : Char) : Nat := c.toNat - 48

/-- Value of a decimal digit string, read left to right. -/
def decValue (cs : List Char) : Nat := cs.foldl (fun a c => a * 10 + digitVal c) 0

/-- The decimal digit list of `n`; reference implementation used to reason
about `Nat.repr` (which is fuel-based). -/
def natDigits (n : Nat) : List Char :=
  if h : n < 10 then [Nat.digitChar n]
  else natDigits (n / 10) ++ [Nat.digitChar (n % 10)]
decreasing_by exact Nat.div_lt_self (by omega) (by omega)

/- ## String helpers mirroring the JavaScript string operations -/

/-- JS `String.prototype.padStart(n, c)`. -/
def padStart (s : String) (n : Nat) (c : Char) : String :=
  String.mk (List.replicate (n - s.data.length) c ++ s.data)

/-- `String(n).padStart(2, '0')`, as used for month/day/hour/minute. -/
def pad2 (n : Nat) : String := padStart (Nat.repr n) 2 '0'

/-- Three-digit zero padding, the `%03d` numbering of ffmpeg's segment
output pattern. -/
def pad3 (n : Nat) : String := padStart (Nat.repr n) 3 '0'

/-- A wall-clock instant: broken-down date fields (as produced by the
`Date` getters, with `month` already 1-based) plus an absolute
millisecond clock `ms` for timer arithmetic. -/
structure DT where
  year : Nat
  month : Nat
  day : Nat
  hour : Nat
  minute : Nat
  ms : Nat
deriving DecidableEq

/-- The `YYYYMMDDHHmm` base name built in the recorder's `onstop` handler:
`${year}${month}${day}${hours}${minutes}` with two-digit padding on all
but the year. -/
def fmtMinute (d : DT) : String :=
  Nat.repr d.year ++ pad2 d.month ++ pad2 d.day ++ pad2 d.hour ++ pad2 d.minute

/-- JS `String.prototype.split(sep)` for a one-character separator,
on character lists.  `split` never returns an empty array. -/
def splitOnChar (sep : Char) : List Char → List (List Char)
  | [] => [[]]
  | c :: cs =>
    if c = sep then [] :: splitOnChar sep cs
    else
      match splitOnChar sep cs with
      | [] => [[c]]
      | r :: rs => (c :: r) :: rs

/-- JS `String.prototype.startsWith`, on character lists. -/
def pfxOf : List Char → List Char → Bool
  | [], _ => true
  | _ :: _, [] => false
  | a :: as, b :: bs => a == b && pfxOf as bs

/-- `mimeType.split('/')[1].split(';')[0]` — the subtype portion of a
media type token (e.g. `"webm"` from `"audio/webm;codecs=opus"`).
When the token has no `'/'` the JS code would throw on `undefined`;
this total model returns `""` there, and theorems about it assume a
well-formed token. -/
def fileExtension (mime : String) : String :=
  String.mk ((splitOnChar ';' ((splitOnChar '/' mime.data).getD 1 [])).headD [])

/- ## Segment naming: collision-disambiguating suffixes (`useRecorder.ts`) -/

/-- The `counter`-th candidate name tried by the collision loop in
`onstop`: `base.ext` for counter 1, `base_k.ext` afterwards. -/
def candName (base ext : String) (k : Nat) : String :=
  if k = 1 then base ++ "." ++ ext else base ++ "_" ++ Nat.repr k ++ "." ++ ext

/-- The `while (prev.some (chunk => chunk.name === finalName))` loop,
with explicit fuel (the JS loop terminates because a fresh candidate
always exists among the first `prev.length + 1` tries). -/
def collideLoop (prev : List String) (base ext : String) : Nat → Nat → String
  | 0, k => candName base ext k
  | fuel + 1, k =>
    if candName base ext k ∈ prev then collideLoop prev base ext fuel (k + 1)
    else candName base ext k

/-- The final name chosen for a new segment given the names already in
`prev`. -/
def freshName (prev : List String) (base ext : String) : String :=
  collideLoop prev base ext (prev.length + 1) 1

/- ## The live recording session (`useRecorder.ts`) -/

/-- A JS `Blob`, modelled by its byte list (`size` = length). -/
abbrev Blob := List Nat

/-- The `SplitFile` record of `types.ts`: a named finished segment. -/
structure SplitFile where
  name : String
  blob : Blob
deriving DecidableEq

/-- `RecordingStatus` of `types.ts`. -/
inductive RecStatus
  | idle
  | recording
  | stopped
deriving DecidableEq

/-- One `MediaRecorder` instance created by `startNewSegment`: its
private per-pass chunk arena, whether it is still recording, the
`mimeType` it captured at creation, and the instant the pass started
(kept so the naming protocol can be compared against it). -/
structure RecorderInst where
  chunks : List Blob
  recording : Bool
  mime : String
  startedAt : DT
deriving DecidableEq

/-- The mutable state held by the `useRecorder` hook: React state plus
the refs.  `stream` models `streamRef` holding a live (un-stopped)
stream, `timer` models `segmentTimerRef` as the arming instant and the
period in milliseconds, `audioCtx` models `audioContextRef`, and
`telemetry` models a scheduled `animationFrameIdRef` (the running
telemetry sampling loop). -/
structure Session where
  status : RecStatus
  recordedChunks : List SplitFile
  error : Option String
  recorder : Option RecorderInst
  stream : Bool
  timer : Option (Nat × Nat)
  mimeType : String
  segmentDuration : Nat
  audioCtx : Bool
  telemetry : Bool
deriving DecidableEq

/-- The hook's initial state. -/
def initSession : Session :=
  { status := .idle, recordedChunks := [], error := none, recorder := none,
    stream := false, timer := none, mimeType := "", segmentDuration := 0,
    audioCtx := false, telemetry := false }

/-- How far `startRecording` gets before an exception (if any):
`acquireFail` = `getUserMedia` rejects (with the permission flag
deciding which message is set); `ctxFail` = the `AudioContext`
constructor throws after the stream ref is stored; `recorderFail` = the
`MediaRecorder` constructor throws after the analyser refs are stored
and the telemetry loop has started; `ok` = no exception. -/
inductive StartOutcome
  | acquireFail (permission : Bool)
  | ctxFail
  | recorderFail
  | ok
deriving DecidableEq

/-- The observable operations on a session, each carrying the wall-clock
instant at which it runs. -/
inductive Event
  | start (mime : String) (durMin : Nat) (oc : StartOutcome) (d : DT)
  | data (b : Blob)
  | stop (d : DT)
  | split (d : DT)
  | timerFire (d : DT)
  | reset (d : DT)
  | deleteSeg (i : Int)

def permissionMsg : String := "麥克風權限被拒絕。請在瀏覽器設定中允許使用麥克風。"

def startOtherMsg : String := "無法開始錄音"

/-- The `onstop` handler of the recorder created by `startNewSegment`:
concatenate the pass's private chunks; if the blob is non-empty, append
a segment named by the *current* time `d` (the instant `onstop` runs)
with the collision-disambiguating suffix loop. -/
def onstopUpdate (prev : List SplitFile) (r : RecorderInst) (d : DT) : List SplitFile :=
  let payload := r.chunks.flatten
  if 0 < payload.length then
    prev ++ [{ name := freshName (prev.map (·.name)) (fmtMinute d) (fileExtension r.mime),
               blob := payload }]
  else prev

/-- The first statement of `createNewSegment` (also the pass-ending part
of `stopRecording`): `if (mediaRecorderRef.current && state === 'recording')
mediaRecorderRef.current.stop()`, firing that recorder's `onstop`. -/
def endPassF (s : Session) (d : DT) : Session :=
  match s.recorder with
  | some r =>
    if r.recording then
      { s with recordedChunks := onstopUpdate s.recordedChunks r d,
               recorder := some { r with recording := false } }
    else s
  | none => s

/-- The second statement of `createNewSegment`: `if (streamRef.current)
startNewSegment(streamRef.current, mimeTypeRef.current)`. -/
def beginPassF (s : Session) (d : DT) : Session :=
  if s.stream then
    { s with recorder := some { chunks := [], recording := true,
                                mime := s.mimeType, startedAt := d } }
  else s

/-- `createNewSegment`: stop the current recorder if it is recording
(its `onstop` fires, appending a segment), then start a new pass against
the stream if one is held. -/
def createNewSegmentF (s : Session) (d : DT) : Session :=
  beginPassF (endPassF s d) d

/-- `startRecording(mimeType, segmentDurationMinutes)` with the failure
point `oc` of its setup sequence. -/
def startF (s : Session) (mime : String) (dur : Nat) (oc : StartOutcome) (d : DT) : Session :=
  let s₀ := { s with error := none }
  if s₀.status = .recording then s₀
  else
    let s₁ := { s₀ with mimeType := mime, segmentDuration := dur }
    match oc with
    | .acquireFail perm =>
      { s₁ with error := some (if perm then permissionMsg else startOtherMsg) }
    | .ctxFail =>
      { s₁ with stream := true, error := some startOtherMsg }
    | .recorderFail =>
      { s₁ with stream := true, audioCtx := true, telemetry := true,
                error := some startOtherMsg }
    | .ok =>
      let s₂ := { s₁ with stream := true, audioCtx := true, telemetry := true,
                          recorder := some { chunks := [], recording := true,
                                             mime := mime, startedAt := d },
                          status := .recording }
      if 0 < dur then { s₂ with timer := some (d.ms, dur * 60000) } else s₂

/-- `stopRecording` (no-op unless recording with a recorder present):
tear down the telemetry loop and audio context, clear the interval, end
the pass (firing `onstop`), stop the stream tracks and release the
handle, and mark the session stopped. -/
def stopF (s : Session) (d : DT) : Session :=
  match s.recorder with
  | none => s
  | some _ =>
    if s.status = .recording then
      let s₂ := endPassF { s with telemetry := false, audioCtx := false, timer := none } d
      { s₂ with stream := false, status := .stopped }
    else s

/-- `splitSegment`: while recording, rotate the pass and re-arm the
auto-split interval from this instant. -/
def splitF (s : Session) (d : DT) : Session :=
  if s.status = .recording then
    let s₁ := createNewSegmentF s d
    let s₂ := match s₁.timer with
      | some _ => { s₁ with timer := none }
      | none => s₁
    if 0 < s₂.segmentDuration then
      { s₂ with timer := some (d.ms, s₂.segmentDuration * 60000) }
    else s₂
  else s

/-- One firing of the `setInterval(createNewSegment, ...)` callback;
only possible while the interval is armed. -/
def timerFireF (s : Session) (d : DT) : Session :=
  if s.timer.isSome then createNewSegmentF s d else s

/-- `resetRecording`: stop first if recording (else just tear down the
audio context), then clear everything back to the initial shape. -/
def resetF (s : Session) (d : DT) : Session :=
  let s₁ :=
    if s.status = .recording then stopF s d
    else { s with telemetry := false, audioCtx := false }
  { s₁ with status := .idle, recordedChunks := [], recorder := none,
            stream := false, timer := none, error := none }

/-- `ondataavailable`: a chunk with `size > 0` is pushed into the active
pass's private arena. -/
def dataF (s : Session) (b : Blob) : Session :=
  match s.recorder with
  | some r =>
    if r.recording ∧ 0 < b.length then
      { s with recorder := some { r with chunks := r.chunks ++ [b] } }
    else s
  | none => s

/-- `deleteSegment(indexToDelete)`:
`prev.filter((_, index) => index !== indexToDelete)`.  The index is an
`Int` so that out-of-range negative arguments are representable. -/
def delIdx {α : Type} (l : List α) (i : Int) : List α :=
  ((l.enum.filter (fun p => !(Int.ofNat p.1 == i))).map Prod.snd)

/-- One observable operation applied to the session state. -/
def stepS (s : Session) : Event → Session
  | .start mime dur oc d => startF s mime dur oc d
  | .data b => dataF s b
  | .stop d => stopF s d
  | .split d => splitF s d
  | .timerFire d => timerFireF s d
  | .reset d => resetF s d
  | .deleteSeg i => { s with recordedChunks := delIdx s.recordedChunks i }

/-- Run a sequence of operations from the initial state. -/
def runS (evs : List Event) : Session := evs.foldl stepS initSession

/-- First instant at which an armed interval will next fire. -/
def nextFire (t : Option (Nat × Nat)) : Option Nat := t.map (fun p => p.1 + p.2)

/-- The names of the session's finished segments. -/
def namesOf (s : Session) : List String := s.recordedChunks.map SplitFile.name

/-- The resources-released property claimed whenever the session is not
recording: no armed interval, no running telemetry loop, no held capture
stream. -/
def releasedProp (s : Session) : Prop :=
  s.status ≠ .recording → s.timer = none ∧ s.telemetry = false ∧ s.stream = false

/-- Strengthened (inductive) session invariant: the released property,
plus the fact that a recording session holds the stream and a recorder. -/
def sessionInv (s : Session) : Prop :=
  releasedProp s ∧ (s.status = .recording → s.stream = true ∧ s.recorder.isSome = true)

/-- Events whose `start` either succeeds or fails during stream
acquisition (before the stream handle is stored). -/
def goodStart : Event → Bool
  | .start _ _ .ctxFail _ => false
  | .start _ _ .recorderFail _ => false
  | _ => true

/- ## Numeric (natural-order) string comparison (`localeCompare` with
`{ numeric: true }`), used by `handleSplit` to sort the output files -/

/-- A collation token: a maximal digit run (compared by value) or a
single non-digit character (compared by code point). -/
inductive NToken
  | num (n : Nat)
  | chr (c : Char)
deriving DecidableEq

/-- Ordering of two collation tokens; digit runs sort before other
characters, mirroring code-point order of digits versus the characters
appearing in file names. -/
def tokCmp : NToken → NToken → Ordering
  | .num m, .num n => compare m n
  | .num _, .chr _ => .lt
  | .chr _, .num _ => .gt
  | .chr c, .chr d => compare c.toNat d.toNat

/-- Split a character list into collation tokens: maximal digit runs
become `num` tokens carrying their value. -/
def tokenize : List Char → List NToken
  | [] => []
  | c :: cs =>
    if c.isDigit then
      .num (decValue (c :: cs.takeWhile Char.isDigit)) :: tokenize (cs.dropWhile Char.isDigit)
    else .chr c :: tokenize cs
termination_by l => l.length
decreasing_by
  · exact Nat.lt_succ_of_le ((List.dropWhile_sublist _).length_le)
  · simp

/-- Lexicographic comparison of token lists. -/
def lexCmp : List NToken → List NToken → Ordering
  | [], [] => .eq
  | [], _ :: _ => .lt
  | _ :: _, [] => .gt
  | a :: as, b :: bs =>
    match tokCmp a b with
    | .eq => lexCmp as bs
    | o => o

/-- `a.name.localeCompare(b.name, undefined, { numeric: true })`. -/
def natCmp (a b : String) : Ordering := lexCmp (tokenize a.data) (tokenize b.data)

/-- The comparator result `≤ 0`, i.e. "`a` does not sort after `b`". -/
def natLe (a b : String) : Bool :=
  match natCmp a b with
  | .gt => false
  | _ => true

/- ## The batch splitter (`AudioSplitter.tsx`, `handleSplit`) -/

/-- JS `String.prototype.toLowerCase` (per-character). -/
def lowerStr (s : String) : String := String.mk (s.data.map Char.toLower)

/-- `file.name.split('.').pop()?.toLowerCase() || 'mp3'`. -/
def originalExtension (name : String) : String :=
  let e := ((splitOnChar '.' name.data).getLastD []).map Char.toLower
  if e = [] then "mp3" else String.mk e

/-- `file.name.substring(0, file.name.lastIndexOf('.'))` — empty when
the name has no dot (`lastIndexOf` returns `-1`). -/
def baseOf (name : String) : String :=
  String.mk (List.intercalate ['.'] (splitOnChar '.' name.data).dropLast)

/-- The deterministic input name `input.${originalExtension}`. -/
def inputName (name : String) : String := "input." ++ originalExtension name

/-- An output name following ffmpeg's `${baseName}_%03d.${ext}` segment
pattern. -/
def mkName (base : String) (k : Nat) (ext : String) : String :=
  base ++ "_" ++ pad3 k ++ "." ++ ext

/-- `FS('writeFile', ...)`: the working area keeps one entry per name
(overwriting an existing name leaves the listing unchanged). -/
def fsInsert (fs : List String) (n : String) : List String :=
  if n ∈ fs then fs else fs ++ [n]

/-- Unlinking every name in `rs` from the working-area listing. -/
def fsEraseAll (l rs : List String) : List String :=
  rs.foldl (fun acc r => acc.erase r) l

/-- The splitter's status values. -/
inductive BStatus
  | idle
  | loading
  | processing
  | done
deriving DecidableEq

/-- The engine operations whose invocation `handleSplit` can be observed
to perform. -/
inductive EngineOp
  | load
  | writeFile (name : String)
  | runSeg
  | readdir
  | readFile (name : String)
  | unlink (name : String)
deriving DecidableEq

/-- Observable behaviour of the external engine for one job: whether
`load()` resolves, whether fetching/writing the input resolves, and
whether `run` resolves — and if it does, which output names it writes
into the working area. -/
structure EngineBehavior where
  loadOk : Bool
  writeOk : Bool
  runResult : Option (List String)
deriving DecidableEq

/-- The component state of `AudioSplitter`: the selected file (by name),
the requested duration, the React state fields, plus the engine-side
state (`fs` = the working-area listing, `loaded` = `ffmpegRef` holding a
loaded engine).  Working-area file contents are not modelled: the code
only moves them around opaquely. -/
structure SplitterState where
  file : Option String
  splitDuration : Int
  status : BStatus
  error : Option String
  splitFiles : List String
  progressPct : Int
  fs : List String
  loaded : Bool
deriving DecidableEq

def noFileMsg : String := "請先選擇一個音訊檔案。"

def badDurationMsg : String := "分割時長必須大於 0。"

def processFailMsg : String := "處理過程中發生錯誤。音檔可能已損壞或格式不相容。"

def noSegmentsMsg : String := "分割失敗，未產生任何檔案。可能是音檔長度不足或格式不支援快速分割。"

/-- `handleSplit`, returning the final state and the engine operations
performed.  The transient `loading`/`processing` statuses and progress
messages are set along the way; only the state after the handler
returns is modelled.  Exceptions (engine unavailable, write failure,
run failure) land in the outer `catch`, which sets the generic failure
message and `idle` — note that the `catch` performs no working-area
cleanup. -/
def handleSplit (s : SplitterState) (beh : EngineBehavior) : SplitterState × List EngineOp :=
  match s.file with
  | none => ({ s with error := some noFileMsg }, [])
  | some fname =>
    if s.splitDuration ≤ 0 then ({ s with error := some badDurationMsg }, [])
    else
      let s₁ := { s with error := none, splitFiles := [] }
      let loadOps : List EngineOp := if s₁.loaded then [] else [.load]
      if ¬ s₁.loaded ∧ beh.loadOk = false then
        ({ s₁ with status := .idle, error := some processFailMsg }, loadOps)
      else
        let s₂ := { s₁ with loaded := true, status := .processing, progressPct := 0 }
        let ext := originalExtension fname
        let input := "input." ++ ext
        let base := baseOf fname
        if beh.writeOk = false then
          ({ s₂ with status := .idle, error := some processFailMsg },
           loadOps ++ [.writeFile input])
        else
          let s₃ := { s₂ with fs := fsInsert s₂.fs input }
          match beh.runResult with
          | none =>
            ({ s₃ with status := .idle, error := some processFailMsg },
             loadOps ++ [.writeFile input, .runSeg])
          | some outs =>
            let s₄ := { s₃ with fs := outs.foldl fsInsert s₃.fs }
            let results := s₄.fs.filter (fun f => pfxOf base.data f.data)
            let s₅ :=
              if results.length = 0 then { s₄ with error := some noSegmentsMsg }
              else { s₄ with splitFiles := results.mergeSort natLe }
            let s₆ := { s₅ with fs := fsEraseAll (s₅.fs.erase input) results,
                                status := .done }
            (s₆,
             loadOps ++ [.writeFile input, .runSeg, .readdir]
               ++ results.map .readFile ++ [.unlink input] ++ results.map .unlink)

/- ## The engine progress callback (`loadFFmpeg`) -/

/-- The `progress: ({ ratio }) => ...` callback registered on the
engine: a ratio in `[0, 1]` observed while the job status is
`processing` replaces the published value with `Math.round(ratio * 100)`;
anything else leaves it unchanged. -/
def progressUpdate (st : BStatus) (ratio : ℚ) (cur : ℤ) : ℤ :=
  if 0 ≤ ratio ∧ ratio ≤ 1 ∧ st = .processing then round (ratio * 100) else cur

/-- The successive published `progressRatio` values, starting from `v`,
under a sequence of engine callbacks (each tagged with the job status at
the time it runs). -/
def progressTrace (v : ℤ) : List (BStatus × ℚ) → List ℤ
  | [] => [v]
  | e :: es => v :: progressTrace (progressUpdate e.1 e.2 v) es

/- ## Concrete sample values used to instantiate the theorems -/

/-- 2025-01-01 10:00, absolute clock 0 ms. -/
def dtEx1 : DT := ⟨2025, 1, 1, 10, 0, 0⟩

/-- 2025-01-01 10:01, absolute clock 60000 ms. -/
def dtEx2 : DT := ⟨2025, 1, 1, 10, 1, 60000⟩

/-- A session in the middle of a recording pass that has received one
7-byte chunk, armed with a 2-minute auto-split interval. -/
def recEx : Session :=
  { initSession with
      status := .recording, stream := true, audioCtx := true, telemetry := true,
      mimeType := "audio/webm", segmentDuration := 2, timer := some (5, 120000),
      recorder := some { chunks := [[7]], recording := true, mime := "audio/webm",
                         startedAt := dtEx1 } }

/-- A session holding a recording pass that has produced no bytes. -/
def recExEmpty : Session :=
  { initSession with
      status := .recording, stream := true, audioCtx := true, telemetry := true,
      mimeType := "audio/webm", segmentDuration := 0,
      recorder := some { chunks := [], recording := true, mime := "audio/webm",
                         startedAt := dtEx1 } }

/-- A stopped session holding three finished segments. -/
def segsEx : Session :=
  { initSession with
      status := .stopped,
      recordedChunks := [{ name := "a.webm", blob := [1] },
                         { name := "b.webm", blob := [2] },
                         { name := "c.webm", blob := [3] }] }

/-- The working-area listing after a successful run: the input written
first, then the run's outputs. -/
def jobFs (s : SplitterState) (fname : String) (outs : List String) : List String :=
  outs.foldl fsInsert (fsInsert s.fs (inputName fname))

/-- `readdir('/').filter(f => f.startsWith(baseName))` after a
successful run. -/
def jobResults (s : SplitterState) (fname : String) (outs : List String) : List String :=
  (jobFs s fname outs).filter (fun f => pfxOf (baseOf fname).data f.data)

/-- A splitter that has just had `song.mp3` selected. -/
def splitIdle : SplitterState :=
  { file := some "song.mp3", splitDuration := 25, status := .idle, error := none,
    splitFiles := [], progressPct := 0, fs := [], loaded := false }

/-- A splitter with no file selected. -/
def splitNoFile : SplitterState :=
  { splitIdle with file := none }

/- ## Lemmas about decimal numerals and `Nat.repr` -/

theorem digitChar_isDigit {d : Nat} (h : d < 10) : (Nat.digitChar d).isDigit = true := by
  interval_cases d <;> decide

theorem digitVal_digitChar {d : Nat} (h : d < 10) : digitVal (Nat.digitChar d) = d := by
  interval_cases d <;> decide

theorem decValue_append_last (cs : List Char) (c : Char) :
    decValue (cs ++ [c]) = decValue cs * 10 + digitVal c := by
  simp [decValue, List.foldl_append]

theorem natDigits_ne_nil (n : Nat) : natDigits n ≠ [] := by
  unfold natDigits
  split <;> simp

theorem natDigits_all_digit (n : Nat) : ∀ c ∈ natDigits n, c.isDigit = true := by
  induction n using Nat.strong_induction_on with
  | _ n ih =>
    unfold natDigits
    split
    · next h =>
      intro c hc
      simp only [List.mem_singleton] at hc
      subst hc
      exact digitChar_isDigit h
    · next h =>
      intro c hc
      rcases List.mem_append.mp hc with hc | hc
      · exact ih (n / 10) (Nat.div_lt_self (by omega) (by omega)) c hc
      · simp only [List.mem_singleton] at hc
        subst hc
        exact digitChar_isDigit (Nat.mod_lt _ (by omega))

theorem decValue_natDigits (n : Nat) : decValue (natDigits n) = n := by
  induction n using Nat.strong_induction_on with
  | _ n ih =>
    unfold natDigits
    split
    · next h =>
      simp [decValue, digitVal_digitChar h]
    · next h =>
      rw [decValue_append_last, ih (n / 10) (Nat.div_lt_self (by omega) (by omega)),
        digitVal_digitChar (Nat.mod_lt _ (by omega))]
      omega

theorem toDigitsCore_eq :
    ∀ (fuel n : Nat) (ds : List Char), n < fuel →
      Nat.toDigitsCore 10 fuel n ds = natDigits n ++ ds := by
  intro fuel
  induction fuel with
  | zero => intro n ds h; omega
  | succ fuel ih =>
    intro n ds h
    simp only [Nat.toDigitsCore]
    split
    · next h0 =>
      have hn : n < 10 := by omega
      rw [natDigits, dif_pos hn, Nat.mod_eq_of_lt hn]
      simp
    · next h0 =>
      have h10 : 10 ≤ n := by
        by_contra hlt
        exact h0 (Nat.div_eq_of_lt (by omega))
      rw [ih (n / 10) _ (by
        have := Nat.div_lt_self (show 0 < n by omega) (show 1 < 10 by omega)
        omega)]
      conv_rhs => rw [natDigits]
      rw [dif_neg (by omega)]
      simp

theorem repr_data (n : Nat) : (Nat.repr n).data = natDigits n := by
  show (Nat.toDigits 10 n).asString.data = natDigits n
  unfold Nat.toDigits
  rw [toDigitsCore_eq (n + 1) n [] (by omega)]
  simp [List.asString]

theorem repr_injective {m n : Nat} (h : Nat.repr m = Nat.repr n) : m = n := by
  have hd : natDigits m = natDigits n := by
    rw [← repr_data, ← repr_data, h]
  calc m = decValue (natDigits m) := (decValue_natDigits m).symm
    _ = decValue (natDigits n) := by rw [hd]
    _ = n := decValue_natDigits n

/- ## Lemmas about the collision-suffix naming loop -/

theorem candName_inj2 {base ext : String} {j k : Nat} (hj : 2 ≤ j) (hk : 2 ≤ k)
    (h : candName base ext j = candName base ext k) : j = k := by
  unfold candName at h
  rw [if_neg (by omega), if_neg (by omega)] at h
  have hd := congrArg String.data h
  simp only [String.data_append, List.append_assoc] at hd
  have h1 := List.append_cancel_left (List.append_cancel_left hd)
  have h2 : (Nat.repr j).data = (Nat.repr k).data := List.append_cancel_right h1
  exact repr_injective (String.ext h2)

theorem collideLoop_not_mem (prev : List String) (base ext : String) :
    ∀ fuel k, (∃ j, k ≤ j ∧ j ≤ k + fuel ∧ candName base ext j ∉ prev) →
      collideLoop prev base ext fuel k ∉ prev := by
  intro fuel
  induction fuel with
  | zero =>
    intro k hj
    obtain ⟨j, h1, h2, h3⟩ := hj
    have : j = k := by omega
    subst this
    simpa [collideLoop] using h3
  | succ fuel ih =>
    intro k hj
    rw [collideLoop]
    split
    · next hmem =>
      apply ih (k + 1)
      obtain ⟨j, h1, h2, h3⟩ := hj
      have hne : j ≠ k := fun he => h3 (he ▸ hmem)
      exact ⟨j, by omega, by omega, h3⟩
    · next hmem => exact hmem

theorem collideLoop_shape (prev : List String) (base ext : String) :
    ∀ fuel k, ∃ j, k ≤ j ∧ collideLoop prev base ext fuel k = candName base ext j := by
  intro fuel
  induction fuel with
  | zero => intro k; exact ⟨k, Nat.le_refl k, rfl⟩
  | succ fuel ih =>
    intro k
    rw [collideLoop]
    split
    · obtain ⟨j, h1, h2⟩ := ih (k + 1)
      exact ⟨j, by omega, h2⟩
    · exact ⟨k, Nat.le_refl k, rfl⟩

theorem exists_fresh (prev : List String) (base ext : String) :
    ∃ j, 1 ≤ j ∧ j ≤ 1 + (prev.length + 1) ∧ candName base ext j ∉ prev := by
  by_contra hc
  push_neg at hc
  have hsub : ((List.range (prev.length + 1)).map (fun i => candName base ext (i + 2))) ⊆ prev := by
    intro x hx
    simp only [List.mem_map, List.mem_range] at hx
    obtain ⟨i, hi, rfl⟩ := hx
    exact hc (i + 2) (by omega) (by omega)
  have hnd : ((List.range (prev.length + 1)).map (fun i => candName base ext (i + 2))).Nodup := by
    apply List.Nodup.map ?_ (List.nodup_range _)
    intro a b hab
    have := candName_inj2 (by omega) (by omega) hab
    omega
  have hle := (List.subperm_of_subset hnd hsub).length_le
  simp only [List.length_map, List.length_range] at hle
  omega

theorem freshName_not_mem (prev : List String) (base ext : String) :
    freshName prev base ext ∉ prev := by
  obtain ⟨j, h1, h2, h3⟩ := exists_fresh prev base ext
  exact collideLoop_not_mem prev base ext (prev.length + 1) 1 ⟨j, h1, by omega, h3⟩

theorem freshName_shape (prev : List String) (base ext : String) :
    ∃ j, 1 ≤ j ∧ freshName prev base ext = candName base ext j :=
  collideLoop_shape prev base ext (prev.length + 1) 1

/- ## Lemmas: `deleteSegment`'s index filter -/

theorem nodup_snoc {α : Type} {l : List α} {a : α} (h : l.Nodup) (ha : a ∉ l) :
    (l ++ [a]).Nodup := by
  induction l with
  | nil => simp
  | cons b t ih =>
    simp only [List.nodup_cons] at h
    simp only [List.mem_cons, not_or] at ha
    simp only [List.cons_append, List.nodup_cons, List.mem_append, List.mem_singleton]
    exact ⟨by tauto, ih h.2 ha.2⟩

theorem delIdx_enumFrom_skip {α : Type} :
    ∀ (l : List α) (n : Nat) (i : Int), (∀ k, k < l.length → Int.ofNat (n + k) ≠ i) →
      ((List.enumFrom n l).filter (fun p => !(Int.ofNat p.1 == i))).map Prod.snd = l := by
  intro l
  induction l with
  | nil => intros; simp
  | cons a t ih =>
    intro n i h
    have hne : Int.ofNat n ≠ i := by simpa using h 0 (by simp)
    rw [List.enumFrom_cons]
    simp only [List.filter_cons]
    rw [if_pos (by simpa using hne)]
    simp only [List.map_cons]
    rw [ih (n + 1) i (fun k hk => by
      have hn : Int.ofNat (n + 1 + k) = Int.ofNat (n + (k + 1)) :=
        congrArg Int.ofNat (by omega)
      rw [hn]
      exact h (k + 1) (by simpa using Nat.succ_lt_succ hk))]

theorem delIdx_enumFrom_hit {α : Type} :
    ∀ (l : List α) (n k : Nat), k < l.length →
      ((List.enumFrom n l).filter (fun p => !(Int.ofNat p.1 == Int.ofNat (n + k)))).map Prod.snd
        = l.eraseIdx k := by
  intro l
  induction l with
  | nil => intro n k h; simp at h
  | cons a t ih =>
    intro n k h
    rw [List.enumFrom_cons]
    simp only [List.filter_cons]
    cases k with
    | zero =>
      rw [if_neg (by simp)]
      rw [List.eraseIdx_cons_zero]
      exact delIdx_enumFrom_skip t (n + 1) (Int.ofNat (n + 0)) (fun k hk he => by
        simp only [Int.ofNat_eq_coe] at he
        omega)
    | succ k' =>
      rw [if_pos (by simp <;> omega)]
      simp only [List.map_cons]
      rw [List.eraseIdx_cons_succ]
      have := ih (n + 1) k' (by simpa using Nat.lt_of_succ_lt_succ h)
      rw [show n + 1 + k' = n + (k' + 1) by omega] at this
      rw [this]

theorem delIdx_eq {α : Type} (l : List α) (i : Int) :
    delIdx l i = if 0 ≤ i ∧ i < (l.length : Int) then l.eraseIdx i.toNat else l := by
  by_cases h : 0 ≤ i ∧ i < (l.length : Int)
  · rw [if_pos h]
    have hi : Int.ofNat (0 + i.toNat) = i := by
      simp only [Int.ofNat_eq_coe]
      omega
    have hres := delIdx_enumFrom_hit l 0 i.toNat (by omega)
    rw [hi] at hres
    unfold delIdx
    rw [show l.enum = List.enumFrom 0 l from rfl]
    exact hres
  · rw [if_neg h]
    unfold delIdx
    rw [show l.enum = List.enumFrom 0 l from rfl]
    exact delIdx_enumFrom_skip l 0 i (fun k hk he => by
      simp only [Int.ofNat_eq_coe] at he
      omega)

theorem delIdx_sublist {α : Type} (l : List α) (i : Int) : (delIdx l i).Sublist l := by
  rw [delIdx_eq]
  split
  · exact List.eraseIdx_sublist l i.toNat
  · exact List.Sublist.refl l

/- ## Lemmas: how each session operation touches the segment list -/

theorem onstopUpdate_nodup {prev : List SplitFile} (r : RecorderInst) (d : DT)
    (h : (prev.map SplitFile.name).Nodup) :
    ((onstopUpdate prev r d).map SplitFile.name).Nodup := by
  unfold onstopUpdate
  dsimp only
  split
  · simp only [List.map_append, List.map_cons, List.map_nil]
    exact nodup_snoc h (freshName_not_mem _ _ _)
  · exact h

theorem startF_chunks (s : Session) (mime : String) (dur : Nat) (oc : StartOutcome) (d : DT) :
    (startF s mime dur oc d).recordedChunks = s.recordedChunks := by
  cases oc <;> unfold startF <;> dsimp only <;> split_ifs <;> rfl

theorem dataF_chunks (s : Session) (b : Blob) :
    (dataF s b).recordedChunks = s.recordedChunks := by
  unfold dataF
  cases h : s.recorder <;> dsimp only <;> split_ifs <;> rfl

theorem endPassF_spec (s : Session) (d : DT) :
    endPassF s d = s ∨
      ∃ r, s.recorder = some r ∧ r.recording = true ∧
        endPassF s d = { s with recordedChunks := onstopUpdate s.recordedChunks r d,
                                recorder := some { r with recording := false } } := by
  unfold endPassF
  cases h : s.recorder with
  | none => left; rfl
  | some r =>
    by_cases hr : r.recording
    · right
      refine ⟨r, rfl, hr, ?_⟩
      dsimp only
      rw [if_pos hr]
    · left
      dsimp only
      rw [if_neg hr]

theorem beginPassF_eq (s : Session) (d : DT) :
    beginPassF s d =
      { s with recorder :=
          if s.stream = true then
            some { chunks := [], recording := true, mime := s.mimeType, startedAt := d }
          else s.recorder } := by
  unfold beginPassF
  split_ifs with h
  · rfl
  · rfl

theorem endPassF_fields (s : Session) (d : DT) :
    (endPassF s d).status = s.status ∧ (endPassF s d).error = s.error ∧
    (endPassF s d).stream = s.stream ∧ (endPassF s d).timer = s.timer ∧
    (endPassF s d).telemetry = s.telemetry ∧ (endPassF s d).audioCtx = s.audioCtx ∧
    (endPassF s d).mimeType = s.mimeType ∧
    (endPassF s d).segmentDuration = s.segmentDuration := by
  rcases endPassF_spec s d with h | ⟨r, _, _, h⟩ <;> rw [h] <;>
    exact ⟨rfl, rfl, rfl, rfl, rfl, rfl, rfl, rfl⟩

theorem endPassF_recorder_isSome (s : Session) (d : DT) :
    (endPassF s d).recorder.isSome = s.recorder.isSome := by
  rcases endPassF_spec s d with h | ⟨r, h1, _, h⟩ <;> rw [h]
  simp [h1]

theorem createNewSegmentF_chunks (s : Session) (d : DT) :
    (createNewSegmentF s d).recordedChunks = s.recordedChunks ∨
      ∃ r, s.recorder = some r ∧ r.recording = true ∧
        (createNewSegmentF s d).recordedChunks = onstopUpdate s.recordedChunks r d := by
  unfold createNewSegmentF
  rw [beginPassF_eq]
  rcases endPassF_spec s d with h | ⟨r, h1, h2, h⟩ <;> rw [h]
  · left; rfl
  · right; exact ⟨r, h1, h2, rfl⟩

theorem stopF_noop (s : Session) (d : DT) (h : s.status ≠ .recording ∨ s.recorder = none) :
    stopF s d = s := by
  unfold stopF
  cases hrec : s.recorder with
  | none => rfl
  | some r0 =>
    dsimp only
    rcases h with h | h
    · rw [if_neg h]
    · rw [hrec] at h
      exact absurd h (by simp)

theorem stopF_eq (s : Session) (d : DT) (r0 : RecorderInst) (hrec : s.recorder = some r0)
    (hst : s.status = .recording) :
    stopF s d =
      { endPassF { s with telemetry := false, audioCtx := false, timer := none } d
          with stream := false, status := .stopped } := by
  unfold stopF
  rw [hrec]
  dsimp only
  rw [if_pos hst]

theorem stopF_chunks (s : Session) (d : DT) :
    (stopF s d).recordedChunks = s.recordedChunks ∨
      ∃ r, s.recorder = some r ∧ r.recording = true ∧
        (stopF s d).recordedChunks = onstopUpdate s.recordedChunks r d := by
  by_cases hg : s.status = .recording ∧ s.recorder.isSome = true
  · obtain ⟨r0, hrec⟩ := Option.isSome_iff_exists.mp hg.2
    rw [stopF_eq s d r0 hrec hg.1]
    rcases endPassF_spec { s with telemetry := false, audioCtx := false, timer := none } d
      with h | ⟨r, h1, h2, h⟩ <;> rw [h]
    · left; rfl
    · right
      exact ⟨r, h1, h2, rfl⟩
  · rw [stopF_noop s d (by
      rcases not_and_or.mp hg with h | h
      · exact Or.inl h
      · right
        cases hrec : s.recorder
        · rfl
        · exact absurd (by rw [hrec]; rfl) h)]
    left; rfl

theorem clearTimer_eq (t : Session) :
    (match t.timer with
      | some _ => { t with timer := none }
      | none => t) = { t with timer := none } := by
  cases t with
  | mk st ch er rec strm tmr mt sd ac tel => cases tmr <;> rfl

theorem splitF_eq (s : Session) (d : DT) (hst : s.status = .recording) :
    splitF s d =
      (if 0 < (createNewSegmentF s d).segmentDuration then
        { createNewSegmentF s d with
            timer := some (d.ms, (createNewSegmentF s d).segmentDuration * 60000) }
      else { createNewSegmentF s d with timer := none }) := by
  unfold splitF
  rw [if_pos hst]
  dsimp only
  rw [clearTimer_eq]

theorem splitF_noop (s : Session) (d : DT) (hst : s.status ≠ .recording) : splitF s d = s := by
  unfold splitF
  rw [if_neg hst]

theorem splitF_chunks (s : Session) (d : DT) :
    (splitF s d).recordedChunks = s.recordedChunks ∨
      ∃ r, s.recorder = some r ∧ r.recording = true ∧
        (splitF s d).recordedChunks = onstopUpdate s.recordedChunks r d := by
  by_cases hst : s.status = .recording
  · rw [splitF_eq s d hst]
    rcases createNewSegmentF_chunks s d with h | ⟨r, h1, h2, h⟩
    · left
      split_ifs <;> exact h
    · right
      refine ⟨r, h1, h2, ?_⟩
      split_ifs <;> exact h
  · rw [splitF_noop s d hst]
    left; rfl

theorem timerFireF_chunks (s : Session) (d : DT) :
    (timerFireF s d).recordedChunks = s.recordedChunks ∨
      ∃ r, s.recorder = some r ∧ r.recording = true ∧
        (timerFireF s d).recordedChunks = onstopUpdate s.recordedChunks r d := by
  unfold timerFireF
  split_ifs
  · exact createNewSegmentF_chunks s d
  · left; rfl

theorem resetF_chunks (s : Session) (d : DT) : (resetF s d).recordedChunks = [] := rfl

/- ## The segment-name uniqueness invariant -/

theorem stepS_nodup (s : Session) (e : Event) (h : (namesOf s).Nodup) :
    (namesOf (stepS s e)).Nodup := by
  cases e with
  | start mime dur oc d =>
    unfold stepS namesOf
    rw [startF_chunks]
    exact h
  | data b =>
    unfold stepS namesOf
    rw [dataF_chunks]
    exact h
  | stop d =>
    rcases stopF_chunks s d with hc | ⟨r, _, _, hc⟩ <;>
      (unfold stepS namesOf; rw [hc])
    · exact h
    · exact onstopUpdate_nodup r d h
  | split d =>
    rcases splitF_chunks s d with hc | ⟨r, _, _, hc⟩ <;>
      (unfold stepS namesOf; rw [hc])
    · exact h
    · exact onstopUpdate_nodup r d h
  | timerFire d =>
    rcases timerFireF_chunks s d with hc | ⟨r, _, _, hc⟩ <;>
      (unfold stepS namesOf; rw [hc])
    · exact h
    · exact onstopUpdate_nodup r d h
  | reset d =>
    unfold stepS namesOf
    rw [resetF_chunks]
    simp
  | deleteSeg i =>
    unfold stepS namesOf
    exact ((delIdx_sublist s.recordedChunks i).map SplitFile.name).nodup h

theorem foldl_stepS_nodup :
    ∀ (evs : List Event) (s : Session), (namesOf s).Nodup →
      (namesOf (evs.foldl stepS s)).Nodup := by
  intro evs
  induction evs with
  | nil => intro s h; exact h
  | cons e evs ih => intro s h; exact ih (stepS s e) (stepS_nodup s e h)

/- ## Field bookkeeping for the resource-release invariant -/

theorem createNewSegmentF_fields (s : Session) (d : DT) :
    (createNewSegmentF s d).status = s.status ∧ (createNewSegmentF s d).stream = s.stream ∧
    (createNewSegmentF s d).timer = s.timer ∧
    (createNewSegmentF s d).telemetry = s.telemetry ∧
    (createNewSegmentF s d).segmentDuration = s.segmentDuration ∧
    (createNewSegmentF s d).error = s.error := by
  unfold createNewSegmentF
  rw [beginPassF_eq]
  have hf := endPassF_fields s d
  exact ⟨hf.1, hf.2.2.1, hf.2.2.2.1, hf.2.2.2.2.1, hf.2.2.2.2.2.2.2, hf.2.1⟩

theorem createNewSegmentF_recorder (s : Session) (d : DT) (hstream : s.stream = true) :
    (createNewSegmentF s d).recorder.isSome = true := by
  unfold createNewSegmentF
  rw [beginPassF_eq]
  have hs : (endPassF s d).stream = true := by
    rw [(endPassF_fields s d).2.2.1]
    exact hstream
  simp [hs]

theorem stopF_telemetry (s : Session) (d : DT) (r0 : RecorderInst)
    (hrec : s.recorder = some r0) (hst : s.status = .recording) :
    (stopF s d).telemetry = false := by
  rw [stopF_eq s d r0 hrec hst]
  show (endPassF { s with telemetry := false, audioCtx := false, timer := none } d).telemetry = false
  rw [(endPassF_fields _ _).2.2.2.2.1]

theorem stepS_inv (s : Session) (e : Event) (hg : goodStart e = true) (h : sessionInv s) :
    sessionInv (stepS s e) := by
  cases e with
  | start mime dur oc d =>
    cases oc with
    | acquireFail p =>
      show sessionInv (startF s mime dur (.acquireFail p) d)
      unfold startF
      dsimp only
      split_ifs with hst hp
      · exact h
      · exact ⟨fun _ => h.1 hst, fun hr => absurd hr hst⟩
      · exact ⟨fun _ => h.1 hst, fun hr => absurd hr hst⟩
    | ctxFail => exact Bool.noConfusion hg
    | recorderFail => exact Bool.noConfusion hg
    | ok =>
      show sessionInv (startF s mime dur .ok d)
      unfold startF
      dsimp only
      split_ifs with hst hdur
      · exact h
      · exact ⟨fun hn => absurd rfl hn, fun _ => ⟨rfl, rfl⟩⟩
      · exact ⟨fun hn => absurd rfl hn, fun _ => ⟨rfl, rfl⟩⟩
  | data b =>
    show sessionInv (dataF s b)
    unfold dataF
    cases hrec : s.recorder with
    | none => exact h
    | some r =>
      dsimp only
      split_ifs with hc
      · refine ⟨h.1, fun hr => ⟨(h.2 hr).1, rfl⟩⟩
      · exact h
  | stop d =>
    by_cases hst : s.status = .recording
    · have hrec := (h.2 hst).2
      obtain ⟨r0, hr0⟩ := Option.isSome_iff_exists.mp hrec
      show sessionInv (stopF s d)
      rw [stopF_eq s d r0 hr0 hst]
      refine ⟨fun _ => ⟨?_, ?_, rfl⟩, fun hx => RecStatus.noConfusion hx⟩
      · show (endPassF { s with telemetry := false, audioCtx := false, timer := none } d).timer = none
        rw [(endPassF_fields _ _).2.2.2.1]
      · show (endPassF { s with telemetry := false, audioCtx := false, timer := none } d).telemetry = false
        rw [(endPassF_fields _ _).2.2.2.2.1]
    · show sessionInv (stopF s d)
      rw [stopF_noop s d (Or.inl hst)]
      exact h
  | split d =>
    by_cases hst : s.status = .recording
    · show sessionInv (splitF s d)
      rw [splitF_eq s d hst]
      have hf := createNewSegmentF_fields s d
      have hrecd : (createNewSegmentF s d).recorder.isSome = true :=
        createNewSegmentF_recorder s d (h.2 hst).1
      split_ifs with hdur
      · refine ⟨fun hn => absurd (by rw [hf.1]; exact hst) hn, fun _ => ?_⟩
        exact ⟨by rw [hf.2.1]; exact (h.2 hst).1, hrecd⟩
      · refine ⟨fun hn => absurd (by rw [hf.1]; exact hst) hn, fun _ => ?_⟩
        exact ⟨by rw [hf.2.1]; exact (h.2 hst).1, hrecd⟩
    · show sessionInv (splitF s d)
      rw [splitF_noop s d hst]
      exact h
  | timerFire d =>
    show sessionInv (timerFireF s d)
    unfold timerFireF
    split_ifs with ht
    · by_cases hst : s.status = .recording
      · have hf := createNewSegmentF_fields s d
        have hrecd : (createNewSegmentF s d).recorder.isSome = true :=
          createNewSegmentF_recorder s d (h.2 hst).1
        refine ⟨fun hn => absurd (by rw [hf.1]; exact hst) hn, fun _ => ?_⟩
        exact ⟨by rw [hf.2.1]; exact (h.2 hst).1, hrecd⟩
      · rw [(h.1 hst).1] at ht
        exact Bool.noConfusion ht
    · exact h
  | reset d =>
    show sessionInv (resetF s d)
    unfold resetF
    dsimp only
    split_ifs with hst
    · have hrec := (h.2 hst).2
      obtain ⟨r0, hr0⟩ := Option.isSome_iff_exists.mp hrec
      refine ⟨fun _ => ⟨rfl, ?_, rfl⟩, fun hx => RecStatus.noConfusion hx⟩
      show (stopF s d).telemetry = false
      exact stopF_telemetry s d r0 hr0 hst
    · exact ⟨fun _ => ⟨rfl, rfl, rfl⟩, fun hx => RecStatus.noConfusion hx⟩
  | deleteSeg i =>
    exact ⟨h.1, fun hr => h.2 hr⟩

theorem foldl_stepS_inv :
    ∀ (evs : List Event) (s : Session), (∀ e ∈ evs, goodStart e = true) → sessionInv s →
      sessionInv (evs.foldl stepS s) := by
  intro evs
  induction evs with
  | nil => intro s _ h; exact h
  | cons e evs ih =>
    intro s hg h
    exact ih (stepS s e) (fun e' he' => hg e' (List.mem_cons_of_mem e he'))
      (stepS_inv s e (hg e (List.mem_cons_self e evs)) h)

/- ## Further bookkeeping lemmas for the pass-end handler -/

theorem onstopUpdate_empty (prev : List SplitFile) (r : RecorderInst) (d : DT)
    (h : r.chunks.flatten = ([] : Blob)) : onstopUpdate prev r d = prev := by
  unfold onstopUpdate
  dsimp only
  rw [h]
  simp

theorem onstopUpdate_pos (prev : List SplitFile) (r : RecorderInst) (d : DT)
    (h : 0 < r.chunks.flatten.length) :
    onstopUpdate prev r d
      = prev ++ [{ name := freshName (prev.map SplitFile.name) (fmtMinute d)
                             (fileExtension r.mime),
                   blob := r.chunks.flatten }] := by
  unfold onstopUpdate
  dsimp only
  rw [if_pos h]

theorem endPassF_eq_pos (s : Session) (d : DT) (r : RecorderInst)
    (hr : s.recorder = some r) (hrec : r.recording = true) :
    endPassF s d = { s with recordedChunks := onstopUpdate s.recordedChunks r d,
                            recorder := some { r with recording := false } } := by
  unfold endPassF
  rw [hr]
  dsimp only
  rw [if_pos hrec]

theorem createNewSegmentF_chunks_pos (s : Session) (d : DT) (r : RecorderInst)
    (hr : s.recorder = some r) (hrec : r.recording = true) :
    (createNewSegmentF s d).recordedChunks = onstopUpdate s.recordedChunks r d := by
  unfold createNewSegmentF
  rw [beginPassF_eq, endPassF_eq_pos s d r hr hrec]

theorem splitF_chunks_pos (s : Session) (d : DT) (r : RecorderInst)
    (hst : s.status = .recording) (hr : s.recorder = some r) (hrec : r.recording = true) :
    (splitF s d).recordedChunks = onstopUpdate s.recordedChunks r d := by
  rw [splitF_eq s d hst]
  split_ifs <;> exact createNewSegmentF_chunks_pos s d r hr hrec

theorem stopF_chunks_pos (s : Session) (d : DT) (r : RecorderInst)
    (hst : s.status = .recording) (hr : s.recorder = some r) (hrec : r.recording = true) :
    (stopF s d).recordedChunks = onstopUpdate s.recordedChunks r d := by
  rw [stopF_eq s d r hr hst]
  show (endPassF { s with telemetry := false, audioCtx := false, timer := none } d).recordedChunks
    = onstopUpdate s.recordedChunks r d
  rw [endPassF_eq_pos { s with telemetry := false, audioCtx := false, timer := none } d r hr hrec]

theorem timerFireF_chunks_pos (s : Session) (d : DT) (r : RecorderInst)
    (ht : s.timer.isSome = true) (hr : s.recorder = some r) (hrec : r.recording = true) :
    (timerFireF s d).recordedChunks = onstopUpdate s.recordedChunks r d := by
  unfold timerFireF
  rw [if_pos ht]
  exact createNewSegmentF_chunks_pos s d r hr hrec

theorem stopF_error (s : Session) (d : DT) : (stopF s d).error = s.error := by
  by_cases hg : s.status = .recording ∧ s.recorder.isSome = true
  · obtain ⟨r0, hrec⟩ := Option.isSome_iff_exists.mp hg.2
    rw [stopF_eq s d r0 hrec hg.1]
    show (endPassF { s with telemetry := false, audioCtx := false, timer := none } d).error
      = s.error
    rw [(endPassF_fields _ _).2.1]
  · rw [stopF_noop s d (by
      rcases not_and_or.mp hg with h | h
      · exact Or.inl h
      · right
        cases hrec : s.recorder
        · rfl
        · exact absurd (by rw [hrec]; rfl) h)]

theorem splitF_error (s : Session) (d : DT) : (splitF s d).error = s.error := by
  by_cases hst : s.status = .recording
  · rw [splitF_eq s d hst]
    split_ifs <;> exact (createNewSegmentF_fields s d).2.2.2.2.2
  · rw [splitF_noop s d hst]

theorem timerFireF_error (s : Session) (d : DT) : (timerFireF s d).error = s.error := by
  unfold timerFireF
  split_ifs
  · exact (createNewSegmentF_fields s d).2.2.2.2.2
  · rfl

/- ## Claim theorems: the recording session -/

/-- C2: for every sequence of completed recording passes within one
session — including any number of passes completing in the same
wall-clock minute — the names of the segments in the session's segment
list are pairwise distinct (the `onstop` handler appends `_2`, `_3`, …
until the candidate name is unused). -/
theorem c2_segment_names_pairwise_distinct (evs : List Event) :
    (namesOf (runS evs)).Nodup :=
  foldl_stepS_nodup evs initSession (by simp [namesOf, initSession])

/-- C3 (counterexample): a `startRecording` call that fails after the
stream handle has been stored (here: the `MediaRecorder` constructor
throws) leaves the session not recording but with the stream held and
the telemetry loop running — the claimed release invariant is false. -/
theorem c3_counterexample :
    (runS [Event.start "audio/webm" 1 .recorderFail dtEx1]).status ≠ .recording ∧
    (runS [Event.start "audio/webm" 1 .recorderFail dtEx1]).stream = true ∧
    (runS [Event.start "audio/webm" 1 .recorderFail dtEx1]).telemetry = true ∧
    ¬ releasedProp (runS [Event.start "audio/webm" 1 .recorderFail dtEx1]) := by
  refine ⟨by decide, by decide, by decide, fun hrel => ?_⟩
  exact absurd (hrel (by decide)).2.2 (by decide)

/-- C3 (amended): after any sequence of session operations in which
every failing `start` fails during stream acquisition (before the
stream handle is stored), whenever the session status is not
`recording` the auto-split timer is cancelled, the telemetry loop is
not running, and the capture stream handle has been released. -/
theorem c3_released_when_not_recording (evs : List Event)
    (hg : ∀ e ∈ evs, goodStart e = true) : releasedProp (runS evs) :=
  (foldl_stepS_inv evs initSession hg
    ⟨fun _ => ⟨rfl, rfl, rfl⟩, fun hx => RecStatus.noConfusion hx⟩).1

theorem c3_released_when_not_recording_witness :
    releasedProp (runS [Event.start "audio/webm" 1 .ok dtEx1, Event.stop dtEx2]) :=
  c3_released_when_not_recording
    [Event.start "audio/webm" 1 .ok dtEx1, Event.stop dtEx2] (by decide)

/-- C4: in a session armed with auto-split period `P > 0` minutes, a
manual `split()` at instant `T` (while recording) cancels the interval
and re-arms it with period `P` at `T`, so the next automatic rotation
fires exactly at — in particular no earlier than — `T + P`. -/
theorem c4_split_rearms_timer (s : Session) (d : DT) (P : Nat)
    (h1 : s.status = .recording) (h2 : s.segmentDuration = P) (h3 : 0 < P) :
    (stepS s (.split d)).timer = some (d.ms, P * 60000) ∧
    nextFire (stepS s (.split d)).timer = some (d.ms + P * 60000) ∧
    (∀ t, nextFire (stepS s (.split d)).timer = some t → d.ms + P * 60000 ≤ t) := by
  have hsd : (createNewSegmentF s d).segmentDuration = P := by
    rw [(createNewSegmentF_fields s d).2.2.2.2.1, h2]
  show (splitF s d).timer = some (d.ms, P * 60000) ∧
      nextFire (splitF s d).timer = some (d.ms + P * 60000) ∧
      (∀ t, nextFire (splitF s d).timer = some t → d.ms + P * 60000 ≤ t)
  rw [splitF_eq s d h1, if_pos (by rw [hsd]; exact h3)]
  refine ⟨?_, ?_, ?_⟩
  · show some (d.ms, (createNewSegmentF s d).segmentDuration * 60000)
        = some (d.ms, P * 60000)
    rw [hsd]
  · show nextFire (some (d.ms, (createNewSegmentF s d).segmentDuration * 60000))
        = some (d.ms + P * 60000)
    rw [hsd]
    rfl
  · intro t ht
    have ht' : some (d.ms + (createNewSegmentF s d).segmentDuration * 60000) = some t := ht
    rw [hsd] at ht'
    injection ht' with hh
    omega

theorem c4_split_rearms_timer_witness :
    (stepS recEx (.split dtEx2)).timer = some (dtEx2.ms, 2 * 60000) ∧
    nextFire (stepS recEx (.split dtEx2)).timer = some (dtEx2.ms + 2 * 60000) ∧
    (∀ t, nextFire (stepS recEx (.split dtEx2)).timer = some t →
      dtEx2.ms + 2 * 60000 ≤ t) :=
  c4_split_rearms_timer recEx dtEx2 2 rfl rfl (by decide)

/-- C6: a pass whose concatenated chunk payload is empty emits no
segment when it ends (by stop, manual split, or timer rotation): the
segment list and the error field are unchanged. -/
theorem c6_empty_pass_no_segment (s : Session) (r : RecorderInst) (e : Event) (d : DT)
    (hr : s.recorder = some r) (hrec : r.recording = true)
    (hempty : r.chunks.flatten = ([] : Blob))
    (he : e = .stop d ∨ e = .split d ∨ e = .timerFire d) :
    (stepS s e).recordedChunks = s.recordedChunks ∧ (stepS s e).error = s.error := by
  rcases he with rfl | rfl | rfl
  · refine ⟨?_, stopF_error s d⟩
    rcases stopF_chunks s d with hc | ⟨r', h1, _, hc⟩
    · exact hc
    · rw [hr] at h1
      obtain rfl : r' = r := (Option.some.inj h1).symm
      exact hc.trans (onstopUpdate_empty _ _ _ hempty)
  · refine ⟨?_, splitF_error s d⟩
    rcases splitF_chunks s d with hc | ⟨r', h1, _, hc⟩
    · exact hc
    · rw [hr] at h1
      obtain rfl : r' = r := (Option.some.inj h1).symm
      exact hc.trans (onstopUpdate_empty _ _ _ hempty)
  · refine ⟨?_, timerFireF_error s d⟩
    rcases timerFireF_chunks s d with hc | ⟨r', h1, _, hc⟩
    · exact hc
    · rw [hr] at h1
      obtain rfl : r' = r := (Option.some.inj h1).symm
      exact hc.trans (onstopUpdate_empty _ _ _ hempty)

theorem c6_empty_pass_no_segment_witness :
    (stepS recExEmpty (.split dtEx2)).recordedChunks = recExEmpty.recordedChunks ∧
    (stepS recExEmpty (.split dtEx2)).error = recExEmpty.error :=
  c6_empty_pass_no_segment recExEmpty
    { chunks := [], recording := true, mime := "audio/webm", startedAt := dtEx1 }
    (.split dtEx2) dtEx2 rfl rfl rfl (Or.inr (Or.inl rfl))

/-- C7 (counterexample): the `onstop` handler names the segment with
`new Date()` evaluated when the pass *ends*, not when it started.  A
pass started at 10:00 and manually split at 10:01 produces the segment
`202501011001.webm`, not `202501011000.webm` as the claim (base name =
capture start time) requires. -/
theorem c7_counterexample :
    namesOf (runS [Event.start "audio/webm" 0 .ok dtEx1, Event.data [7],
                   Event.split dtEx2])
      = ["202501011001.webm"] ∧
    fmtMinute dtEx1 ++ "." ++ fileExtension "audio/webm" = "202501011000.webm" ∧
    ("202501011001.webm" : String) ≠ "202501011000.webm" := by
  refine ⟨by decide, by decide, by decide⟩

/-- C7 (amended): for every non-empty recording pass — whether it is
ended by `stop`, by a manual `split`, or by the automatic timer
rotation (which presupposes an armed interval) — the resulting
segment's name is built from the instant `d` at which the pass *ends*
(when the recorder's stop event runs) formatted `YYYYMMDDHHmm`, with
the collision counter appended when needed, and its extension is the
subtype portion of the media type token captured when the pass's
recorder was created. -/
theorem c7_segment_naming (s : Session) (r : RecorderInst) (e : Event) (d : DT)
    (hst : s.status = .recording) (hr : s.recorder = some r) (hrec : r.recording = true)
    (hne : r.chunks.flatten ≠ ([] : Blob))
    (hmime : 2 ≤ (splitOnChar '/' r.mime.data).length)
    (he : e = .stop d ∨ e = .split d ∨ (e = .timerFire d ∧ s.timer.isSome = true)) :
    ∃ k, 1 ≤ k ∧
      (stepS s e).recordedChunks
        = s.recordedChunks ++
            [{ name := candName (fmtMinute d) (fileExtension r.mime) k,
               blob := r.chunks.flatten }] := by
  obtain ⟨k, hk1, hkeq⟩ :=
    freshName_shape (s.recordedChunks.map SplitFile.name) (fmtMinute d)
      (fileExtension r.mime)
  refine ⟨k, hk1, ?_⟩
  have hpos := List.length_pos.mpr hne
  rcases he with rfl | rfl | ⟨rfl, ht⟩
  · show (stopF s d).recordedChunks = _
    rw [stopF_chunks_pos s d r hst hr hrec, onstopUpdate_pos _ _ _ hpos, hkeq]
  · show (splitF s d).recordedChunks = _
    rw [splitF_chunks_pos s d r hst hr hrec, onstopUpdate_pos _ _ _ hpos, hkeq]
  · show (timerFireF s d).recordedChunks = _
    rw [timerFireF_chunks_pos s d r ht hr hrec, onstopUpdate_pos _ _ _ hpos, hkeq]

theorem c7_segment_naming_witness :
    ∃ k, 1 ≤ k ∧
      (stepS recEx (.stop dtEx2)).recordedChunks
        = recEx.recordedChunks ++
            [{ name := candName (fmtMinute dtEx2) (fileExtension "audio/webm") k,
               blob := ([[7]] : List Blob).flatten }] :=
  c7_segment_naming recEx
    { chunks := [[7]], recording := true, mime := "audio/webm", startedAt := dtEx1 }
    (.stop dtEx2) dtEx2 rfl rfl rfl (by decide) (by decide) (Or.inl rfl)

/-- C10: `deleteSegment(i)` with `i` out of range (negative or not less
than the segment count) leaves the segment list unchanged and raises no
error; with `i` in range it removes exactly the `i`-th segment
(preserving the order of the rest); `status` and `error` are never
affected. -/
theorem c10_deleteSegment_behavior (s : Session) (i : Int) :
    (stepS s (.deleteSeg i)).status = s.status ∧
    (stepS s (.deleteSeg i)).error = s.error ∧
    ((i < 0 ∨ (s.recordedChunks.length : Int) ≤ i) →
      (stepS s (.deleteSeg i)).recordedChunks = s.recordedChunks) ∧
    (0 ≤ i → i < (s.recordedChunks.length : Int) →
      (stepS s (.deleteSeg i)).recordedChunks = s.recordedChunks.eraseIdx i.toNat) := by
  refine ⟨rfl, rfl, ?_, ?_⟩
  · intro hor
    show delIdx s.recordedChunks i = s.recordedChunks
    rw [delIdx_eq, if_neg (by rcases hor with h | h <;> omega)]
  · intro h1 h2
    show delIdx s.recordedChunks i = s.recordedChunks.eraseIdx i.toNat
    rw [delIdx_eq, if_pos ⟨h1, h2⟩]

theorem c10_deleteSegment_behavior_witness :
    (stepS segsEx (.deleteSeg 1)).recordedChunks = segsEx.recordedChunks.eraseIdx 1 ∧
    (stepS segsEx (.deleteSeg 5)).recordedChunks = segsEx.recordedChunks ∧
    (stepS segsEx (.deleteSeg (-3))).recordedChunks = segsEx.recordedChunks := by
  refine ⟨?_, ?_, ?_⟩
  · have h := (c10_deleteSegment_behavior segsEx 1).2.2.2 (by decide) (by decide)
    exact h
  · exact (c10_deleteSegment_behavior segsEx 5).2.2.1 (Or.inr (by decide))
  · exact (c10_deleteSegment_behavior segsEx (-3)).2.2.1 (Or.inl (by decide))

/- ## Lemmas: the engine working-area listing -/

theorem fsInsert_nodup {l : List String} {n : String} (h : l.Nodup) : (fsInsert l n).Nodup := by
  unfold fsInsert
  split_ifs with hm
  · exact h
  · exact nodup_snoc h hm

theorem mem_fsInsert_self (l : List String) (n : String) : n ∈ fsInsert l n := by
  unfold fsInsert
  split_ifs with hm
  · exact hm
  · simp

theorem mem_fsInsert_of_mem {l : List String} {a : String} (n : String) (h : a ∈ l) :
    a ∈ fsInsert l n := by
  unfold fsInsert
  split_ifs with hm
  · exact h
  · simp [h]

theorem foldl_fsInsert_nodup (outs : List String) :
    ∀ l : List String, l.Nodup → (outs.foldl fsInsert l).Nodup := by
  induction outs with
  | nil => intro l h; exact h
  | cons o outs ih => intro l h; exact ih (fsInsert l o) (fsInsert_nodup h)

theorem mem_foldl_fsInsert_of_mem (outs : List String) :
    ∀ l : List String, ∀ a ∈ l, a ∈ outs.foldl fsInsert l := by
  induction outs with
  | nil => intro l a h; exact h
  | cons o outs ih => intro l a h; exact ih (fsInsert l o) a (mem_fsInsert_of_mem o h)

theorem mem_foldl_fsInsert_of_mem_arg (outs : List String) :
    ∀ l : List String, ∀ a ∈ outs, a ∈ outs.foldl fsInsert l := by
  induction outs with
  | nil => intro l a h; exact absurd h (List.not_mem_nil a)
  | cons o outs ih =>
    intro l a h
    rcases List.mem_cons.mp h with rfl | h
    · exact mem_foldl_fsInsert_of_mem outs (fsInsert l a) a (mem_fsInsert_self l a)
    · exact ih (fsInsert l o) a h

theorem not_mem_eraseAll_of_not_mem {a : String} (rs : List String) :
    ∀ l : List String, a ∉ l → a ∉ fsEraseAll l rs := by
  induction rs with
  | nil => intro l h; exact h
  | cons r rs ih =>
    intro l h
    exact ih (l.erase r) (fun hm => h (List.erase_subset r l hm))

theorem not_mem_eraseAll_of_mem {a : String} (rs : List String) :
    ∀ l : List String, l.Nodup → a ∈ rs → a ∉ fsEraseAll l rs := by
  induction rs with
  | nil => intro l _ h; exact absurd h (List.not_mem_nil a)
  | cons r rs ih =>
    intro l hnd h
    rcases List.mem_cons.mp h with rfl | h
    · exact not_mem_eraseAll_of_not_mem rs (l.erase a)
        (fun hm => ((hnd.mem_erase_iff).mp hm).1 rfl)
    · exact ih (l.erase r) (hnd.erase r) h

theorem eraseAll_nodup (rs : List String) :
    ∀ l : List String, l.Nodup → (fsEraseAll l rs).Nodup := by
  induction rs with
  | nil => intro l h; exact h
  | cons r rs ih => intro l h; exact ih (l.erase r) (h.erase r)

/- ## Claim theorems: batch validation and cleanup -/

/-- C9: a batch split request with no file selected or a non-positive
duration is rejected before any engine interaction: no engine operation
is performed and the only state change is the validation error
message. -/
theorem c9_validation_rejects_before_engine (s : SplitterState) (beh : EngineBehavior)
    (h : s.file = none ∨ s.splitDuration ≤ 0) :
    (handleSplit s beh).2 = [] ∧
    (handleSplit s beh).1
      = { s with error := some (if s.file = none then noFileMsg else badDurationMsg) } := by
  rcases hf : s.file with _ | fname
  · unfold handleSplit
    rw [hf]
    exact ⟨rfl, by rw [if_pos rfl]⟩
  · have hd : s.splitDuration ≤ 0 := by
      rcases h with h | h
      · rw [hf] at h; exact Option.noConfusion h
      · exact h
    unfold handleSplit
    rw [hf]
    dsimp only
    rw [if_pos hd]
    refine ⟨rfl, ?_⟩
    rw [if_neg (by simp)]

theorem c9_validation_rejects_before_engine_witness :
    (handleSplit splitNoFile ⟨true, true, none⟩).2 = [] ∧
    (handleSplit splitNoFile ⟨true, true, none⟩).1
      = { splitNoFile with error := some (if splitNoFile.file = none then noFileMsg
                                          else badDurationMsg) } :=
  c9_validation_rejects_before_engine splitNoFile ⟨true, true, none⟩ (Or.inl rfl)

/-- C1 (counterexample): when the segmentation run throws after the
input file has been written (engine behaviour `runResult = none`), the
`catch` block performs no cleanup: the job returns with the input file
still in the engine working area, refuting the claim that the working
area never retains the job's input. -/
theorem c1_counterexample :
    inputName "song.mp3" ∈ (handleSplit splitIdle ⟨true, true, none⟩).1.fs ∧
    (handleSplit splitIdle ⟨true, true, none⟩).1.fs = ["input.mp3"] := by decide

theorem handleSplit_run_fs (s : SplitterState) (fname : String) (outs : List String)
    (hf : s.file = some fname) (hd : 0 < s.splitDuration) :
    (handleSplit s ⟨true, true, some outs⟩).1.fs
      = fsEraseAll ((jobFs s fname outs).erase (inputName fname))
          (jobResults s fname outs) := by
  unfold handleSplit
  rw [hf]
  dsimp only
  rw [if_neg (not_le.mpr hd)]
  rw [if_neg (by simp)]
  rw [if_neg (by simp)]
  split_ifs <;> rfl

theorem handleSplit_run_splitFiles (s : SplitterState) (fname : String) (outs : List String)
    (hf : s.file = some fname) (hd : 0 < s.splitDuration)
    (hne : (jobResults s fname outs).length ≠ 0) :
    (handleSplit s ⟨true, true, some outs⟩).1.splitFiles
      = (jobResults s fname outs).mergeSort natLe := by
  unfold handleSplit
  rw [hf]
  dsimp only
  rw [if_neg (not_le.mpr hd)]
  rw [if_neg (by simp)]
  rw [if_neg (by simp)]
  have hne' : ¬ ((List.filter (fun f => pfxOf (baseOf fname).data f.data)
      (List.foldl fsInsert (fsInsert s.fs ("input." ++ originalExtension fname)) outs)).length
        = 0) := hne
  rw [if_neg hne']
  rfl

/-- C1 (amended): for every batch job whose engine load, input write and
segmentation run complete without an exception — including runs that
produce zero outputs — the working area afterwards contains neither the
job's input name nor any of the job's output names, provided the
working-area listing is duplicate-free and the source base name is not
a prefix of the fixed input name (otherwise the JS cleanup would unlink
the input twice and itself throw).  When the run throws after the input
is written, no cleanup is performed and the input remains
(see the counterexample). -/
theorem c1_cleanup_on_nonexceptional_run (s : SplitterState) (fname : String)
    (outs : List String)
    (hf : s.file = some fname) (hd : 0 < s.splitDuration) (hnd : s.fs.Nodup)
    (houts : ∀ o ∈ outs, pfxOf (baseOf fname).data o.data = true)
    (hinput : pfxOf (baseOf fname).data (inputName fname).data = false) :
    inputName fname ∉ (handleSplit s ⟨true, true, some outs⟩).1.fs ∧
    ∀ o ∈ outs, o ∉ (handleSplit s ⟨true, true, some outs⟩).1.fs := by
  rw [handleSplit_run_fs s fname outs hf hd]
  have hndJob : (jobFs s fname outs).Nodup :=
    foldl_fsInsert_nodup outs _ (fsInsert_nodup hnd)
  constructor
  · apply not_mem_eraseAll_of_not_mem
    exact fun hm => ((hndJob.mem_erase_iff).mp hm).1 rfl
  · intro o ho
    apply not_mem_eraseAll_of_mem _ _ (hndJob.erase _)
    exact List.mem_filter.mpr
      ⟨mem_foldl_fsInsert_of_mem_arg outs _ o ho, houts o ho⟩

theorem c1_cleanup_on_nonexceptional_run_witness :
    inputName "song.mp3" ∉ (handleSplit splitIdle ⟨true, true, some []⟩).1.fs ∧
    ∀ o ∈ ([] : List String), o ∉ (handleSplit splitIdle ⟨true, true, some []⟩).1.fs :=
  c1_cleanup_on_nonexceptional_run splitIdle "song.mp3" [] rfl (by decide) (by decide)
    (by simp) (by decide)

/- ## Lemmas: the engine progress callback -/

theorem round_mono2 {a b : ℚ} (h : a ≤ b) : round a ≤ round b := by
  rw [round_eq, round_eq]
  exact Int.floor_le_floor (by linarith)

theorem round_pct_bounds {r : ℚ} (h0 : 0 ≤ r) (h1 : r ≤ 1) :
    0 ≤ round (r * 100) ∧ round (r * 100) ≤ 100 := by
  constructor
  · have := round_mono2 (show (0 : ℚ) ≤ r * 100 by nlinarith)
    simpa using this
  · have := round_mono2 (show r * 100 ≤ (100 : ℚ) by nlinarith)
    have h100 : round ((100 : ℚ)) = (100 : ℤ) := by
      have : ((100 : ℚ)) = ((100 : ℤ) : ℚ) := by norm_num
      rw [this, round_intCast]
    omega

theorem progressUpdate_bounds (st : BStatus) (r : ℚ) {v : ℤ} (h0 : 0 ≤ v) (h1 : v ≤ 100) :
    0 ≤ progressUpdate st r v ∧ progressUpdate st r v ≤ 100 := by
  unfold progressUpdate
  split_ifs with hc
  · exact round_pct_bounds hc.1 hc.2.1
  · exact ⟨h0, h1⟩

theorem progressTrace_head (evs : List (BStatus × ℚ)) (v : ℤ) :
    ∃ rest, progressTrace v evs = v :: rest := by
  cases evs <;> exact ⟨_, rfl⟩

theorem progressTrace_bounds :
    ∀ (evs : List (BStatus × ℚ)) (v : ℤ), 0 ≤ v → v ≤ 100 →
      ∀ x ∈ progressTrace v evs, 0 ≤ x ∧ x ≤ 100 := by
  intro evs
  induction evs with
  | nil =>
    intro v h0 h1 x hx
    simp only [progressTrace, List.mem_singleton] at hx
    subst hx
    exact ⟨h0, h1⟩
  | cons e es ih =>
    intro v h0 h1 x hx
    simp only [progressTrace, List.mem_cons] at hx
    rcases hx with rfl | hx
    · exact ⟨h0, h1⟩
    · have hb := progressUpdate_bounds e.1 e.2 h0 h1
      exact ih (progressUpdate e.1 e.2 v) hb.1 hb.2 x hx

theorem progressTrace_chain :
    ∀ (evs : List (BStatus × ℚ)) (v : ℤ),
      List.Pairwise (fun a b => a.2 ≤ b.2) evs →
      (∀ e ∈ evs, 0 ≤ e.2 → e.2 ≤ 1 → e.1 = .processing → v ≤ round (e.2 * 100)) →
      List.Chain' (· ≤ ·) (progressTrace v evs) := by
  intro evs
  induction evs with
  | nil => intro v _ _; simp [progressTrace]
  | cons e es ih =>
    intro v hp hH
    show List.Chain' (· ≤ ·) (v :: progressTrace (progressUpdate e.1 e.2 v) es)
    rw [List.chain'_cons']
    have hvv : v ≤ progressUpdate e.1 e.2 v := by
      unfold progressUpdate
      split_ifs with hc
      · exact hH e (List.mem_cons_self e es) hc.1 hc.2.1 hc.2.2
      · exact le_refl v
    constructor
    · intro y hy
      obtain ⟨rest, hrest⟩ := progressTrace_head es (progressUpdate e.1 e.2 v)
      rw [hrest] at hy
      simp only [List.head?_cons, Option.mem_def, Option.some.injEq] at hy
      subst hy
      exact hvv
    · apply ih
      · exact hp.sublist (List.sublist_cons_self e es)
      · intro e' he' hr0 hr1 hst
        have hnext : v ≤ round (e'.2 * 100) := hH e' (List.mem_cons_of_mem e he') hr0 hr1 hst
        unfold progressUpdate
        split_ifs with hc
        · exact round_mono2 (by
            have := (List.pairwise_cons.mp hp).1 e' he'
            nlinarith)
        · exact hnext

/- ## Claim theorems: the engine progress value -/

/-- C5 (counterexample): the progress callback stores
`Math.round(ratio * 100)` — a single accepted callback with ratio `1/2`
publishes the value `50`, which is not in `[0, 1]`; and with engine
ratios `0.9` then `0.1` (both accepted while `processing`) the
published sequence `0, 90, 10` is not monotone. -/
theorem c5_counterexample :
    progressTrace 0 [(BStatus.processing, (1 : ℚ)/2)] = [0, 50] ∧
    ¬ ((50 : ℤ) ≤ 1) ∧
    ¬ List.Chain' (· ≤ ·)
        (progressTrace 0 [(BStatus.processing, (9:ℚ)/10), (BStatus.processing, (1:ℚ)/10)]) := by
  have h50 : round ((1:ℚ)/2 * 100) = (50 : ℤ) := by
    have : ((1:ℚ)/2 * 100) = ((50 : ℤ) : ℚ) := by norm_num
    rw [this, round_intCast]
  have h90 : round ((9:ℚ)/10 * 100) = (90 : ℤ) := by
    have : ((9:ℚ)/10 * 100) = ((90 : ℤ) : ℚ) := by norm_num
    rw [this, round_intCast]
  have h10 : round ((1:ℚ)/10 * 100) = (10 : ℤ) := by
    have : ((1:ℚ)/10 * 100) = ((10 : ℤ) : ℚ) := by norm_num
    rw [this, round_intCast]
  refine ⟨?_, by norm_num, ?_⟩
  · simp [progressTrace, progressUpdate, h50]
    norm_num
  · have ht : progressTrace 0 [(BStatus.processing, (9:ℚ)/10), (BStatus.processing, (1:ℚ)/10)]
        = [0, 90, 10] := by
      simp [progressTrace, progressUpdate, h90, h10]
      norm_num
    rw [ht]
    simp only [List.chain'_cons, List.chain'_singleton]
    omega

/-- C5 (amended): starting from the reset value 0, every published
`progressRatio` value lies in `[0, 100]` (it is the integer percentage
`Math.round(ratio * 100)`); the published sequence is monotonically
non-decreasing provided the engine reports non-decreasing ratios; and a
callback arriving while the job status is not `Processing` never
changes the value. -/
theorem c5_progress_percentage (evs : List (BStatus × ℚ)) :
    (∀ x ∈ progressTrace 0 evs, 0 ≤ x ∧ x ≤ 100) ∧
    (List.Pairwise (fun a b => a.2 ≤ b.2) evs →
      List.Chain' (· ≤ ·) (progressTrace 0 evs)) ∧
    (∀ st r v, st ≠ .processing → progressUpdate st r v = v) := by
  refine ⟨progressTrace_bounds evs 0 (le_refl 0) (by norm_num), fun hp => ?_, ?_⟩
  · apply progressTrace_chain evs 0 hp
    intro e _ hr0 _ _
    have : round ((0 : ℚ)) ≤ round (e.2 * 100) := round_mono2 (by nlinarith)
    simpa using this
  · intro st r v hst
    unfold progressUpdate
    rw [if_neg (fun hc => hst hc.2.2)]

theorem c5_progress_percentage_witness :
    List.Chain' (· ≤ ·)
      (progressTrace 0 [(BStatus.processing, (1:ℚ)/4), (BStatus.processing, (3:ℚ)/4)]) :=
  (c5_progress_percentage [(BStatus.processing, (1:ℚ)/4), (BStatus.processing, (3:ℚ)/4)]).2.1
    (by norm_num [List.pairwise_cons])

/- ## Lemmas: the numeric collation comparator -/

theorem charToNat_inj {c d : Char} (h : c.toNat = d.toNat) : c = d := by
  have : c.val = d.val := by
    have h1 : c.val.toNat = d.val.toNat := h
    exact UInt32.ext (by exact_mod_cast h1)
  exact Char.ext this

theorem tokCmp_eq_iff (a b : NToken) : tokCmp a b = .eq ↔ a = b := by
  cases a <;> cases b <;> simp only [tokCmp]
  · constructor
    · intro h
      rw [Nat.compare_eq_eq.mp h]
    · intro h
      cases h
      exact Nat.compare_eq_eq.mpr rfl
  · constructor
    · intro h; exact Ordering.noConfusion h
    · intro h; exact NToken.noConfusion h
  · constructor
    · intro h; exact Ordering.noConfusion h
    · intro h; exact NToken.noConfusion h
  · constructor
    · intro h
      rw [charToNat_inj (Nat.compare_eq_eq.mp h)]
    · intro h
      cases h
      exact Nat.compare_eq_eq.mpr rfl

theorem tokCmp_swap (a b : NToken) : (tokCmp a b).swap = tokCmp b a := by
  cases a <;> cases b <;> simp only [tokCmp]
  · exact Nat.compare_swap _ _
  · rfl
  · rfl
  · exact Nat.compare_swap _ _

theorem tokCmp_trans_lt {a b c : NToken} (h1 : tokCmp a b = .lt) (h2 : tokCmp b c = .lt) :
    tokCmp a c = .lt := by
  cases a <;> cases b <;> cases c <;> simp only [tokCmp] at h1 h2 ⊢ <;>
    first
      | rfl
      | exact Ordering.noConfusion h1
      | exact Ordering.noConfusion h2
      | exact Nat.compare_eq_lt.mpr
          (Nat.lt_trans (Nat.compare_eq_lt.mp h1) (Nat.compare_eq_lt.mp h2))

theorem lexCmp_eq_iff : ∀ x y : List NToken, lexCmp x y = .eq ↔ x = y := by
  intro x
  induction x with
  | nil =>
    intro y
    cases y <;> simp [lexCmp]
  | cons a as ih =>
    intro y
    cases y with
    | nil => simp [lexCmp]
    | cons b bs =>
      simp only [lexCmp]
      cases h : tokCmp a b with
      | eq =>
        rw [(tokCmp_eq_iff a b).mp h]
        simp [ih bs]
      | lt =>
        constructor
        · intro hc; exact Ordering.noConfusion hc
        · intro hc
          rw [List.cons.injEq] at hc
          rw [hc.1] at h
          rw [(tokCmp_eq_iff b b).mpr rfl] at h
          exact Ordering.noConfusion h
      | gt =>
        constructor
        · intro hc; exact Ordering.noConfusion hc
        · intro hc
          rw [List.cons.injEq] at hc
          rw [hc.1] at h
          rw [(tokCmp_eq_iff b b).mpr rfl] at h
          exact Ordering.noConfusion h

theorem lexCmp_swap : ∀ x y : List NToken, (lexCmp x y).swap = lexCmp y x := by
  intro x
  induction x with
  | nil => intro y; cases y <;> rfl
  | cons a as ih =>
    intro y
    cases y with
    | nil => rfl
    | cons b bs =>
      simp only [lexCmp]
      rw [← tokCmp_swap a b]
      cases h : tokCmp a b <;> simp only [Ordering.swap] <;> first | rfl | exact ih bs

theorem lexCmp_trans_lt : ∀ x y z : List NToken,
    lexCmp x y = .lt → lexCmp y z = .lt → lexCmp x z = .lt := by
  intro x
  induction x with
  | nil =>
    intro y z h1 h2
    cases y with
    | nil => exact h2
    | cons b bs =>
      cases z with
      | nil => exact absurd h2 (by simp [lexCmp])
      | cons c cs => rfl
  | cons a as ih =>
    intro y z h1 h2
    cases y with
    | nil => exact absurd h1 (by simp [lexCmp])
    | cons b bs =>
      cases z with
      | nil => exact absurd h2 (by simp [lexCmp])
      | cons c cs =>
        simp only [lexCmp] at h1 h2 ⊢
        cases hab : tokCmp a b with
        | gt => rw [hab] at h1; exact Ordering.noConfusion h1
        | lt =>
          rw [hab] at h1
          cases hbc : tokCmp b c with
          | gt => rw [hbc] at h2; exact Ordering.noConfusion h2
          | lt => rw [tokCmp_trans_lt hab hbc]
          | eq =>
            rw [← (tokCmp_eq_iff b c).mp hbc, hab]
        | eq =>
          rw [hab] at h1
          rw [(tokCmp_eq_iff a b).mp hab]
          cases hbc : tokCmp b c with
          | gt =>
            rw [hbc] at h2
            exact Ordering.noConfusion h2
          | lt => rfl
          | eq =>
            rw [hbc] at h2
            exact ih bs cs h1 h2

/- ## Lemmas: tokenization of the `%03d` output names -/


theorem takeWhile_append_all {p : Char → Bool} :
    ∀ (l : List Char) (c : Char) (r : List Char), (∀ x ∈ l, p x = true) → p c = false →
      ((l ++ c :: r).takeWhile p = l ∧ (l ++ c :: r).dropWhile p = c :: r) := by
  intro l
  induction l with
  | nil =>
    intro c r _ hc
    simp [List.takeWhile_cons, List.dropWhile_cons, hc]
  | cons a as ih =>
    intro c r h hc
    have ha : p a = true := h a (List.mem_cons_self a as)
    obtain ⟨h1, h2⟩ := ih c r (fun x hx => h x (List.mem_cons_of_mem a hx)) hc
    constructor
    · simp only [List.cons_append, List.takeWhile_cons, ha, if_true, h1]
    · simp only [List.cons_append, List.dropWhile_cons, ha, if_true, h2]

theorem takeWhile_append_stop {p : Char → Bool} :
    ∀ (l t : List Char), (∃ x ∈ l, p x = false) →
      ((l ++ t).takeWhile p = l.takeWhile p ∧ (l ++ t).dropWhile p = l.dropWhile p ++ t) := by
  intro l
  induction l with
  | nil =>
    intro t h
    obtain ⟨x, hx, _⟩ := h
    exact absurd hx (List.not_mem_nil x)
  | cons a as ih =>
    intro t h
    by_cases ha : p a = true
    · have hex : ∃ x ∈ as, p x = false := by
        obtain ⟨x, hx, hpx⟩ := h
        rcases List.mem_cons.mp hx with rfl | hx
        · rw [ha] at hpx; exact Bool.noConfusion hpx
        · exact ⟨x, hx, hpx⟩
      obtain ⟨h1, h2⟩ := ih t hex
      constructor
      · simp only [List.cons_append, List.takeWhile_cons, ha, if_true, h1]
      · simp only [List.cons_append, List.dropWhile_cons, ha, if_true, h2]
    · have ha' : p a = false := by
        cases hpa : p a
        · rfl
        · exact absurd hpa ha
      constructor
      · simp only [List.cons_append, List.takeWhile_cons, ha', Bool.false_eq_true, if_false]
      · simp only [List.cons_append, List.dropWhile_cons, ha', Bool.false_eq_true, if_false]

theorem tokenize_cons_nondigit (c : Char) (cs : List Char) (hc : c.isDigit = false) :
    tokenize (c :: cs) = .chr c :: tokenize cs := by
  rw [tokenize]
  simp [hc]

theorem tokenize_cons_digit (c : Char) (cs : List Char) (hc : c.isDigit = true) :
    tokenize (c :: cs)
      = .num (decValue (c :: cs.takeWhile Char.isDigit)) :: tokenize (cs.dropWhile Char.isDigit) := by
  rw [tokenize]
  simp [hc]

theorem boolNotTrue {b : Bool} (h : ¬ b = true) : b = false := by
  cases b
  · rfl
  · exact absurd rfl h

theorem tokenize_nil : tokenize [] = [] := by rw [tokenize]

theorem tokenize_append_sep :
    ∀ (n : Nat) (xs : List Char), xs.length ≤ n →
      ∀ (c : Char) (ys : List Char), c.isDigit = false →
        tokenize (xs ++ c :: ys) = tokenize (xs ++ [c]) ++ tokenize ys := by
  intro n
  induction n with
  | zero =>
    intro xs h c ys hc
    have hx : xs = [] := List.eq_nil_of_length_eq_zero (by omega)
    subst hx
    simp only [List.nil_append]
    rw [tokenize_cons_nondigit c ys hc, tokenize_cons_nondigit c [] hc, tokenize_nil]
    rfl
  | succ n ih =>
    intro xs hlen c ys hc
    cases xs with
    | nil =>
      simp only [List.nil_append]
      rw [tokenize_cons_nondigit c ys hc, tokenize_cons_nondigit c [] hc, tokenize_nil]
      rfl
    | cons a as =>
      simp only [List.cons_append]
      by_cases ha : a.isDigit = true
      · by_cases hall : ∀ x ∈ as, Char.isDigit x = true
        · obtain ⟨ht1, hd1⟩ := takeWhile_append_all as c ys hall hc
          obtain ⟨ht2, hd2⟩ := takeWhile_append_all as c [] hall hc
          rw [tokenize_cons_digit a _ ha, tokenize_cons_digit a _ ha]
          rw [ht1, hd1, ht2, hd2]
          rw [tokenize_cons_nondigit c ys hc, tokenize_cons_nondigit c [] hc, tokenize_nil]
          rfl
        · have hex : ∃ x ∈ as, Char.isDigit x = false := by
            push_neg at hall
            obtain ⟨x, hx, hpx⟩ := hall
            exact ⟨x, hx, boolNotTrue hpx⟩
          obtain ⟨ht1, hd1⟩ := takeWhile_append_stop as (c :: ys) hex
          obtain ⟨ht2, hd2⟩ := takeWhile_append_stop as [c] hex
          rw [tokenize_cons_digit a _ ha, tokenize_cons_digit a _ ha]
          rw [ht1, hd1, ht2, hd2]
          rw [ih (as.dropWhile Char.isDigit)
            (by
              have h1 := (List.dropWhile_sublist (l := as) Char.isDigit).length_le
              simp only [List.length_cons] at hlen
              omega) c ys hc]
          rw [List.cons_append]
      · have ha' : a.isDigit = false := boolNotTrue ha
        rw [tokenize_cons_nondigit a _ ha', tokenize_cons_nondigit a _ ha']
        rw [ih as (by simp only [List.length_cons] at hlen; omega) c ys hc]
        rfl

theorem tokenize_digits_sep (ds : List Char) (c : Char) (r : List Char)
    (hne : ds ≠ []) (hall : ∀ x ∈ ds, Char.isDigit x = true) (hc : c.isDigit = false) :
    tokenize (ds ++ c :: r) = .num (decValue ds) :: tokenize (c :: r) := by
  cases ds with
  | nil => exact absurd rfl hne
  | cons d ds' =>
    simp only [List.cons_append]
    rw [tokenize_cons_digit d _ (hall d (List.mem_cons_self d ds'))]
    obtain ⟨ht, hd⟩ := takeWhile_append_all ds' c r
      (fun x hx => hall x (List.mem_cons_of_mem d hx)) hc
    rw [ht, hd]

theorem decValue_zero_pad (m : Nat) (ds : List Char) :
    decValue (List.replicate m '0' ++ ds) = decValue ds := by
  unfold decValue
  rw [List.foldl_append]
  have : List.foldl (fun a c => a * 10 + digitVal c) 0 (List.replicate m '0') = 0 := by
    induction m with
    | zero => rfl
    | succ m ih => simpa [List.replicate_succ] using ih
  rw [this]

theorem pad3_data (k : Nat) :
    (pad3 k).data = List.replicate (3 - (Nat.repr k).data.length) '0' ++ (Nat.repr k).data := rfl

theorem pad3_all_digit (k : Nat) : ∀ x ∈ (pad3 k).data, Char.isDigit x = true := by
  rw [pad3_data]
  intro x hx
  rcases List.mem_append.mp hx with hx | hx
  · rw [List.eq_of_mem_replicate hx]
    decide
  · rw [repr_data] at hx
    exact natDigits_all_digit k x hx

theorem pad3_ne_nil (k : Nat) : (pad3 k).data ≠ [] := by
  rw [pad3_data]
  intro h
  rcases List.append_eq_nil.mp h with ⟨_, h2⟩
  rw [repr_data] at h2
  exact natDigits_ne_nil k h2

theorem decValue_pad3 (k : Nat) : decValue (pad3 k).data = k := by
  rw [pad3_data, decValue_zero_pad, repr_data, decValue_natDigits]

theorem mkName_data (base : String) (k : Nat) (ext : String) :
    (mkName base k ext).data = base.data ++ '_' :: ((pad3 k).data ++ '.' :: ext.data) := by
  unfold mkName
  simp only [String.data_append, List.append_assoc]
  rfl

theorem tokenize_mkName (base : String) (k : Nat) (ext : String) :
    tokenize (mkName base k ext).data
      = tokenize (base.data ++ ['_']) ++ .num k :: tokenize ('.' :: ext.data) := by
  rw [mkName_data]
  rw [tokenize_append_sep (base.data.length) base.data (le_refl _) '_' _ (by decide)]
  rw [tokenize_digits_sep (pad3 k).data '.' ext.data (pad3_ne_nil k) (pad3_all_digit k)
    (by decide)]
  rw [decValue_pad3]

theorem lexCmp_append_left : ∀ (t x y : List NToken), lexCmp (t ++ x) (t ++ y) = lexCmp x y := by
  intro t
  induction t with
  | nil => intro x y; rfl
  | cons a t ih =>
    intro x y
    simp only [List.cons_append, lexCmp, (tokCmp_eq_iff a a).mpr rfl]
    exact ih x y

theorem natCmp_mkName (base ext : String) (i j : Nat) :
    natCmp (mkName base i ext) (mkName base j ext) = compare i j := by
  unfold natCmp
  rw [tokenize_mkName, tokenize_mkName, lexCmp_append_left]
  simp only [lexCmp]
  cases h : compare i j with
  | eq =>
    rw [Nat.compare_eq_eq.mp h]
    simp only [tokCmp, Nat.compare_eq_eq.mpr rfl]
    exact (lexCmp_eq_iff _ _).mpr rfl
  | lt =>
    simp only [tokCmp, h]
  | gt =>
    simp only [tokCmp, h]

theorem natLe_eq_true_iff (a b : String) : natLe a b = true ↔ natCmp a b ≠ .gt := by
  unfold natLe
  cases h : natCmp a b <;> simp

theorem natLe_total (a b : String) : (natLe a b || natLe b a) = true := by
  rcases h : natCmp a b with _ | _ | _
  · have : natLe a b = true := by unfold natLe; rw [h]
    simp [this]
  · have : natLe a b = true := by unfold natLe; rw [h]
    simp [this]
  · have hba : natCmp b a = .lt := by
      have := lexCmp_swap (tokenize a.data) (tokenize b.data)
      unfold natCmp at h ⊢
      rw [h] at this
      exact this.symm
    have : natLe b a = true := by unfold natLe; rw [hba]
    simp [this]

theorem natLe_trans (a b c : String) (h1 : natLe a b = true) (h2 : natLe b c = true) :
    natLe a c = true := by
  rw [natLe_eq_true_iff] at h1 h2 ⊢
  unfold natCmp at h1 h2 ⊢
  rcases hxy : lexCmp (tokenize a.data) (tokenize b.data) with _ | _ | _
  · rcases hyz : lexCmp (tokenize b.data) (tokenize c.data) with _ | _ | _
    · rw [lexCmp_trans_lt _ _ _ hxy hyz]
      intro hq
      exact Ordering.noConfusion hq
    · rw [← (lexCmp_eq_iff _ _).mp hyz, hxy]
      intro hq
      exact Ordering.noConfusion hq
    · exact absurd hyz h2
  · rw [(lexCmp_eq_iff _ _).mp hxy]
    exact h2
  · exact absurd hxy h1

theorem natLe_antisymm_eq_cmp (a b : String) (h1 : natLe a b = true) (h2 : natLe b a = true) :
    natCmp a b = .eq := by
  rw [natLe_eq_true_iff] at h1 h2
  rcases h : natCmp a b with _ | _ | _
  · exfalso
    apply h2
    have := lexCmp_swap (tokenize a.data) (tokenize b.data)
    unfold natCmp at h ⊢
    rw [h] at this
    exact this.symm
  · rfl
  · exact absurd h h1

theorem mkName_suffix_inj (base ext : String) :
    Function.Injective (fun k => mkName base k ext) := by
  intro i j h
  have := natCmp_mkName base ext i j
  simp only at h
  rw [h] at this
  have heq : natCmp (mkName base j ext) (mkName base j ext) = .eq := by
    unfold natCmp
    exact (lexCmp_eq_iff _ _).mpr rfl
  rw [heq] at this
  exact Nat.compare_eq_eq.mp this.symm

theorem natLe_mkName_iff (base ext : String) (i j : Nat) :
    natLe (mkName base i ext) (mkName base j ext) = true ↔ i ≤ j := by
  rw [natLe_eq_true_iff, natCmp_mkName]
  constructor
  · intro h
    by_contra hij
    exact h (Nat.compare_eq_gt.mpr (by omega))
  · intro h hq
    have := Nat.compare_eq_gt.mp hq
    omega

theorem perm_pairwise_eq {α : Type} (le : α → α → Bool) :
    ∀ (l₁ l₂ : List α), l₁.Perm l₂ →
      l₁.Pairwise (fun a b => le a b = true) → l₂.Pairwise (fun a b => le a b = true) →
      (∀ a ∈ l₁, ∀ b ∈ l₁, le a b = true → le b a = true → a = b) →
      l₁ = l₂ := by
  intro l₁
  induction l₁ with
  | nil =>
    intro l₂ hperm _ _ _
    exact (hperm.symm.eq_nil).symm
  | cons a t₁ ih =>
    intro l₂ hperm hp₁ hp₂ hanti
    cases l₂ with
    | nil => exact hperm.eq_nil
    | cons b t₂ =>
      have hab : a = b := by
        by_contra hne
        have ha2 : a ∈ b :: t₂ := hperm.mem_iff.mp (List.mem_cons_self a t₁)
        have hat2 : a ∈ t₂ := by
          rcases List.mem_cons.mp ha2 with h | h
          · exact absurd h hne
          · exact h
        have hb1 : b ∈ a :: t₁ := hperm.symm.mem_iff.mp (List.mem_cons_self b t₂)
        have hbt1 : b ∈ t₁ := by
          rcases List.mem_cons.mp hb1 with h | h
          · exact absurd h.symm hne
          · exact h
        have hleab : le a b = true := (List.pairwise_cons.mp hp₁).1 b hbt1
        have hleba : le b a = true := (List.pairwise_cons.mp hp₂).1 a hat2
        exact hne (hanti a (List.mem_cons_self a t₁) b (List.mem_cons_of_mem a hbt1)
          hleab hleba)
      subst hab
      have htail : t₁ = t₂ :=
        ih t₂ hperm.cons_inv (List.pairwise_cons.mp hp₁).2 (List.pairwise_cons.mp hp₂).2
          (fun x hx y hy => hanti x (List.mem_cons_of_mem a hx) y (List.mem_cons_of_mem a hy))
      rw [htail]

theorem pfxOf_append : ∀ xs ys : List Char, pfxOf xs (xs ++ ys) = true := by
  intro xs
  induction xs with
  | nil => intro ys; rfl
  | cons a as ih => intro ys; simp [pfxOf, ih]

theorem pfxOf_mkName (base : String) (k : Nat) (ext : String) :
    pfxOf base.data (mkName base k ext).data = true := by
  rw [mkName_data]
  exact pfxOf_append _ _

theorem foldl_fsInsert_fresh :
    ∀ (outs l : List String), outs.Nodup → (∀ o ∈ outs, o ∉ l) →
      outs.foldl fsInsert l = l ++ outs := by
  intro outs
  induction outs with
  | nil => intro l _ _; simp
  | cons o os ih =>
    intro l hnd hfr
    have h1 : fsInsert l o = l ++ [o] := by
      unfold fsInsert
      rw [if_neg (hfr o (List.mem_cons_self o os))]
    show List.foldl fsInsert (fsInsert l o) os = l ++ o :: os
    rw [h1, ih (l ++ [o]) (List.nodup_cons.mp hnd).2 (fun o' ho' => by
      simp only [List.mem_append, List.mem_singleton]
      rintro (h | rfl)
      · exact hfr o' (List.mem_cons_of_mem o ho') h
      · exact (List.nodup_cons.mp hnd).1 ho')]
    simp

/-- C8: for every successful batch split whose outputs follow the
`${baseName}_%03d.${ext}` pattern, `splitFiles` is ordered by the
numeric value of the suffix embedded in each name (the comparator is
`localeCompare` with `numeric: true`), i.e. it equals the names taken
in increasing suffix order; in particular with ten or more outputs,
`010` sorts after `002`. -/
theorem c8_outputs_in_numeric_suffix_order (s : SplitterState) (fname : String) (ks : List Nat) (outs : List String)
    (hf : s.file = some fname) (hd : 0 < s.splitDuration) (hfs : s.fs = [])
    (houts : outs = ks.map (fun k => mkName (baseOf fname) k (originalExtension fname)))
    (hks : ks.Nodup) (hne : ks ≠ [])
    (hinput : pfxOf (baseOf fname).data (inputName fname).data = false) :
    (handleSplit s ⟨true, true, some outs⟩).1.splitFiles
      = (ks.mergeSort (fun a b => decide (a ≤ b))).map
          (fun k => mkName (baseOf fname) k (originalExtension fname)) := by
  have houtsnd : outs.Nodup := by
    rw [houts]
    exact List.Nodup.map (mkName_suffix_inj _ _) hks
  have hJ : jobFs s fname outs = inputName fname :: outs := by
    unfold jobFs
    rw [hfs]
    have h1 : fsInsert [] (inputName fname) = [inputName fname] := by simp [fsInsert]
    rw [h1, foldl_fsInsert_fresh outs [inputName fname] houtsnd (fun o ho hmem => by
      have hpf : pfxOf (baseOf fname).data o.data = true := by
        rw [houts] at ho
        obtain ⟨k, _, rfl⟩ := List.mem_map.mp ho
        exact pfxOf_mkName _ _ _
      rw [List.mem_singleton] at hmem
      rw [hmem] at hpf
      rw [hpf] at hinput
      exact Bool.noConfusion hinput)]
    rfl
  have hres : jobResults s fname outs = outs := by
    unfold jobResults
    rw [hJ]
    rw [List.filter_cons]
    rw [if_neg (by rw [hinput]; exact Bool.noConfusion)]
    apply List.filter_eq_self.mpr
    intro o ho
    rw [houts] at ho
    obtain ⟨k, _, rfl⟩ := List.mem_map.mp ho
    exact pfxOf_mkName _ _ _
  have hlen : (jobResults s fname outs).length ≠ 0 := by
    rw [hres, houts, List.length_map]
    intro h0
    exact hne (List.eq_nil_of_length_eq_zero h0)
  rw [handleSplit_run_splitFiles s fname outs hf hd hlen, hres]
  apply perm_pairwise_eq natLe
  · have p1 : (outs.mergeSort natLe).Perm outs := List.mergeSort_perm outs natLe
    have p2 : ((ks.mergeSort (fun a b => decide (a ≤ b))).map
        (fun k => mkName (baseOf fname) k (originalExtension fname))).Perm
          (ks.map (fun k => mkName (baseOf fname) k (originalExtension fname))) :=
      (List.mergeSort_perm ks (fun a b => decide (a ≤ b))).map _
    exact p1.trans (by rw [houts]; exact p2.symm)
  · exact List.sorted_mergeSort natLe_trans natLe_total outs
  · rw [List.pairwise_map]
    have hs : (ks.mergeSort (fun a b => decide (a ≤ b))).Pairwise
        (fun a b => (fun a b => decide (a ≤ b)) a b = true) :=
      List.sorted_mergeSort (by
          intro a b c h1 h2
          simp only [decide_eq_true_eq] at h1 h2 ⊢
          omega)
        (by
          intro a b
          simp only [Bool.or_eq_true, decide_eq_true_eq]
          omega) ks
    exact hs.imp (fun h => (natLe_mkName_iff _ _ _ _).mpr (by simpa using h))
  · intro x hx y hy hxy hyx
    have hxo : x ∈ outs := (List.mergeSort_perm outs natLe).mem_iff.mp hx
    have hyo : y ∈ outs := (List.mergeSort_perm outs natLe).mem_iff.mp hy
    rw [houts] at hxo hyo
    obtain ⟨kx, _, rfl⟩ := List.mem_map.mp hxo
    obtain ⟨ky, _, rfl⟩ := List.mem_map.mp hyo
    have hcmp := natLe_antisymm_eq_cmp _ _ hxy hyx
    rw [natCmp_mkName] at hcmp
    rw [Nat.compare_eq_eq.mp hcmp]

theorem c8_outputs_in_numeric_suffix_order_witness :
    (handleSplit splitIdle
        ⟨true, true, some ([10, 2, 1, 3, 7, 4, 5, 6, 9, 8].map
          (fun k => mkName (baseOf "song.mp3") k (originalExtension "song.mp3")))⟩).1.splitFiles
      = (([10, 2, 1, 3, 7, 4, 5, 6, 9, 8] : List Nat).mergeSort
          (fun a b => decide (a ≤ b))).map
          (fun k => mkName (baseOf "song.mp3") k (originalExtension "song.mp3")) :=
  c8_outputs_in_numeric_suffix_order splitIdle "song.mp3" [10, 2, 1, 3, 7, 4, 5, 6, 9, 8] _
    rfl (by decide) rfl rfl (by decide) (by decide) (by decide)
